import Mathlib

/-!
# Verification of the room-director subsystem (aicompany_mud)

A shallow embedding, in Lean 4, of the instruction-routing and LLM-orchestration
core of the repository: `utils/facts.py`, `utils/affordance.py`,
`utils/room_object_query.py`, `utils/room_targeting.py`, `utils/llm_client.py`,
`utils/room_text.py` and the speech dispatcher of `typeclasses/rooms.py`.

Conventions of the embedding:
* Python strings are Lean `String`s; the Python string methods used by the code
  (`strip`, `lower`, `startswith`, `in`, slicing) are re-implemented below on
  `List Char` so that their algebra is available to proofs.  `strip()` uses the
  ASCII whitespace set `' '`, `'\t'`, `'\n'`, `'\r'`, `'\x0b'`, `'\x0c'`;
  `lower()` lowercases ASCII letters (all text handled by the code is ASCII).
* Game objects (Evennia typeclassed objects) are modelled by a record carrying
  exactly the attributes the code reads: `dbref`, `key`, `db.shortdesc`,
  `db.notable` plus a closed `kind` tag standing for the dynamic
  `inherits_from` checks against `DefaultExit` / `DefaultCharacter`.
  An unset (`None`) `shortdesc` is modelled as `""`, which is how the code
  itself normalises it (`obj.db.shortdesc or ""`).
* `time.time()` values are rationals (the code only compares differences of
  timestamps against constants, so float rounding is never exercised).
* Fallible Python code is modelled with `Option`/`Except`; a raised exception
  is an explicit error value.
-/

set_option autoImplicit false

namespace MudSpec

/-! ## Python string primitives -/

/-- The characters Python's `str.strip()` removes: ASCII whitespace. -/
def isPyWs (c : Char) : Bool :=
  c = ' ' ∨ c = '\t' ∨ c = '\n' ∨ c = '\r' ∨ c = '\x0b' ∨ c = '\x0c'

/-- `s.strip()` on a char list: drop whitespace from both ends. -/
def stripList (l : List Char) : List Char :=
  ((l.dropWhile isPyWs).reverse.dropWhile isPyWs).reverse

/-- Python `s.strip()`. -/
def pyStrip (s : String) : String := String.mk (stripList s.toList)

/-- `s.lstrip(chars)`: drop leading characters belonging to `chars`. -/
def pyLStripChars (s : String) (chars : List Char) : String :=
  String.mk (s.toList.dropWhile (fun c => chars.contains c))

/-- `s.strip(chars)`: drop characters belonging to `chars` from both ends. -/
def pyStripChars (s : String) (chars : List Char) : String :=
  String.mk
    (((s.toList.dropWhile (fun c => chars.contains c)).reverse.dropWhile
        (fun c => chars.contains c)).reverse)

/-- Python `str.lower()` (ASCII). -/
def pyLower (s : String) : String := String.mk (s.toList.map Char.toLower)

/-- Python `needle in hay` on strings (substring containment). -/
def pyContains (hay needle : String) : Bool :=
  decide (needle.toList <:+: hay.toList)

/-- Python `s.isdigit()` restricted to ASCII digits (all inputs are ASCII). -/
def pyIsDigit (s : String) : Bool :=
  s ≠ "" ∧ s.toList.all Char.isDigit

/-- Python `l[-n:]`: the last `n` elements of a list. -/
def pyLastN {α : Type} (n : Nat) (l : List α) : List α :=
  l.drop (l.length - n)

/-! ## `utils/facts.py` — the fact store

A stored fact entry is a Python dict; the code only ever consults its
`"id"` and `"text"` fields (`f.get("id")`, `f.get("text")`), so a dict entry is
modelled by those two observations.  `none` stands for an absent (or
non-string) field, which compares unequal to every string id, exactly as the
Python values do.  Entries that are not dicts are `Fact.other`. -/

inductive Fact where
  /-- A dict entry, observed through `f.get("id")` and `f.get("text")`. -/
  | fdict (idv : Option String) (textv : Option String)
  /-- A non-dict entry. -/
  | other
  deriving DecidableEq, Repr

/-- The value stored under the `facts` attribute of an entity: absent (`None`),
a list, or some other (non-list) Python value carrying only its truthiness. -/
inductive PyFacts where
  | pynone
  | pylist (fs : List Fact)
  /-- A non-list, non-`None` value; `truthy` is its Python truth value. -/
  | pyother (truthy : Bool)
  deriving DecidableEq, Repr

/-- `obj.db.facts or []`, followed by the `isinstance(facts, list)` test:
`some fs` when the code proceeds with the list `fs`, `none` when the value is
a truthy non-list (the code bails out without writing). -/
def pyFactsOrEmpty : PyFacts → Option (List Fact)
  | .pynone => some []
  | .pylist fs => some fs
  | .pyother true => none
  | .pyother false => some []

/-- `isinstance(f, dict)`. -/
def isDictFact : Fact → Bool
  | .fdict _ _ => true
  | .other => false

/-- `f.get("id")` of a dict entry (`none` for `.other`, where the code never
evaluates it thanks to the `and` short-circuit). -/
def factIdOf : Fact → Option String
  | .fdict idv _ => idv
  | .other => none

/-- `facts.remove_fact(obj, fact_id)`: returns the Python return value and the
value stored in `obj.db.facts` afterwards. -/
def remove_fact (stored : PyFacts) (fact_id : String) : Bool × PyFacts :=
  match pyFactsOrEmpty stored with
  | none => (false, stored)
  | some fs =>
    let before := fs.length
    let fs' := fs.filter fun f => isDictFact f ∧ factIdOf f ≠ some fact_id
    (decide (fs'.length ≠ before), .pylist fs')

/-- `facts.add_fact(obj, fact)`: the stored value afterwards. -/
def add_fact (stored : PyFacts) (f : Fact) : PyFacts :=
  match pyFactsOrEmpty stored with
  | none => .pylist [f]
  | some fs => .pylist (fs ++ [f])

/-- `facts.get_facts(obj)`. -/
def get_facts (stored : PyFacts) : List Fact :=
  match pyFactsOrEmpty stored with
  | none => []
  | some fs => fs

/-- `facts.new_fact(text, created_by, scope, strength)`, observed through the
two fields the rest of the code reads.  The generated id is
`"fact_" + secrets.token_hex(3)`; the random hex suffix is passed in as
`fresh`. -/
def new_fact (text : String) (fresh : String) : Fact :=
  .fdict (some ("fact_" ++ fresh)) (some (pyStrip text))

/-! ## `utils/affordance.py` — the affordance store

Affordance values are open Python dicts, modelled as association lists of
string keys.  Lookup is first-match; Python's insertion `a[k] = v` for an
absent key appends at the end, assignment to a present key replaces in place,
which is exactly what `dset`/`dsetAbsent` below do.  The float literals `1.0`
and `0.0` appear only as stored data, never in arithmetic, and are modelled by
the corresponding integers. -/

inductive AffVal where
  | astr (s : String)
  | anum (n : Int)
  | abool (b : Bool)
  | alist (xs : List String)
  | adict (d : List (String × AffVal))

abbrev AffDict := List (String × AffVal)

/-- Python `d.get(k)` (first binding, as in a dict with unique keys). -/
def dget (d : AffDict) (k : String) : Option AffVal :=
  (d.find? (fun kv => kv.fst = k)).map (·.snd)

/-- Python `k in d`. -/
def dhas (d : AffDict) (k : String) : Bool :=
  d.any (fun kv => kv.fst = k)

/-- Python `d.setdefault(k, v)` / `if k not in d: d[k] = v`. -/
def dsetAbsent (d : AffDict) (k : String) (v : AffVal) : AffDict :=
  if dhas d k then d else d ++ [(k, v)]

/-- Python `d[k] = v`: replace in place when present, append when absent. -/
def dset (d : AffDict) (k : String) (v : AffVal) : AffDict :=
  if dhas d k then d.map (fun kv => if kv.fst = k then (k, v) else kv)
  else d ++ [(k, v)]

/-- The nested `container` dict of `affordance.default_affordance`. -/
def default_container : AffDict :=
  [("is_container", .abool false), ("capacity_weight", .anum 0),
   ("openable", .abool false), ("is_open", .abool true)]

/-- `affordance.default_affordance(unit)`. -/
def default_affordance (unit : String := "lb") : AffDict :=
  [("unit", .astr unit), ("weight", .anum 1), ("immovable", .abool false),
   ("container", .adict default_container),
   ("manipulations", .alist ["pick up", "examine"])]

/-- `a = obj.db.affordance or {}` followed by
`if not isinstance(a, dict): a = {}`: any stored value that is not a dict
(including an absent attribute) starts from the empty dict. -/
def affDictOf : Option AffVal → AffDict
  | some (.adict d) => d
  | _ => []

/-- `affordance.ensure_affordance(obj, unit)`: `stored` is `obj.db.affordance`
(`none` for an absent attribute); the result is the dict written back and
returned. -/
def ensure_affordance (stored : Option AffVal) (unit : String := "lb") : AffDict :=
  let a : AffDict := affDictOf stored
  let base := default_affordance unit
  -- shallow-merge for top level
  let a := base.foldl (fun acc kv => dsetAbsent acc kv.fst kv.snd) a
  -- nested container merge
  match dget a "container" with
  | some (.adict c) =>
    let c := default_container.foldl (fun acc kv => dsetAbsent acc kv.fst kv.snd) c
    dset a "container" (.adict c)
  | _ => dset a "container" (.adict default_container)

/-! ## Game objects and `utils/room_object_query.py`

The dynamic `inherits_from(obj, "...DefaultExit"/"...DefaultCharacter")`
classification is modelled by a closed `kind` tag on each object (the spec's
own design note prescribes exactly this reimplementation).  Entries of
`room.contents` are always real objects here (`None` entries, which the code
skips defensively, are not modelled). -/

inductive ObjKind where
  | prop
  | exitK
  | character
  deriving DecidableEq, Repr

structure Obj where
  dbref : String
  key : String
  /-- `obj.db.shortdesc or ""`: an unset shortdesc is the empty string. -/
  shortdesc : String
  /-- `obj.db.notable` (truthiness of the attribute). -/
  notable : Bool
  kind : ObjKind
  /-- `obj.db.facts`, used by the speech dispatcher. -/
  facts : PyFacts := .pynone
  deriving DecidableEq, Repr

structure Room where
  contents : List Obj
  deriving DecidableEq, Repr

/-- `room_object_query.is_exit(obj)`. -/
def is_exit (obj : Obj) : Bool := obj.kind = .exitK

/-- `room_object_query.is_character(obj)`. -/
def is_character (obj : Obj) : Bool := obj.kind = .character

/-- `room_object_query.is_prop(obj)`. -/
def is_prop (obj : Obj) : Bool := ¬ is_exit obj ∧ ¬ is_character obj

/-- `room_object_query.iter_notable_props(room)` (as the list it yields). -/
def iter_notable_props (room : Room) : List Obj :=
  room.contents.filter (fun obj => is_prop obj ∧ obj.notable)

/-- `room_object_query.list_notables_with_dbref(room, limit)`. -/
def list_notables_with_dbref (room : Room) (limit : Nat := 12) : String :=
  String.intercalate ", "
    (((iter_notable_props room).map (fun o => o.key ++ "(" ++ o.dbref ++ ")")).take limit)

/-- Python `s.startswith(prefix)`. -/
def pyStartsWith (s pre : String) : Bool :=
  pre.toList.isPrefixOf s.toList

/-- The trimmed target text has the exact dbref form `#<digits>`:
`t.startswith("#") and t[1:].isdigit()`. -/
def isDbrefForm (t : String) : Bool :=
  pyStartsWith t "#" ∧ pyIsDigit (String.mk (t.toList.drop 1))

/-- The single `for obj in room.contents` loop of `find_object_in_room` after
the dbref tier: an exact (lowercased) key/shortdesc match returns at once;
substring matches are accumulated in `cands`; at the end the unique candidate
wins, anything else is `None`. -/
def findNameLoop (needle : String) (notable_only : Bool) :
    List Obj → List Obj → Option Obj
  | [], cands => if cands.length = 1 then cands.head? else none
  | obj :: rest, cands =>
    if ¬ is_prop obj then findNameLoop needle notable_only rest cands
    else if notable_only ∧ ¬ obj.notable then findNameLoop needle notable_only rest cands
    else
      let key := pyLower obj.key
      let sd := pyLower obj.shortdesc
      if needle = key ∨ needle = sd then some obj
      else if pyContains key needle ∨ (sd ≠ "" ∧ pyContains sd needle) then
        findNameLoop needle notable_only rest (cands ++ [obj])
      else findNameLoop needle notable_only rest cands

/-- `room_object_query.find_object_in_room(room, target_text, notable_only)`. -/
def find_object_in_room (room : Room) (target_text : String)
    (notable_only : Bool := false) : Option Obj :=
  let t := pyStrip target_text
  if t = "" then none
  else if isDbrefForm t then
    room.contents.find? (fun obj => obj.dbref = t)
  else
    findNameLoop (pyLower t) notable_only room.contents []

/-- Remove the first element satisfying `p`; return it and the remaining list
(Python's `obj.delete()` on an object found by a scan of `room.contents`). -/
def removeFirst {α : Type} (p : α → Bool) : List α → Option α × List α
  | [] => (none, [])
  | x :: xs =>
    if p x then (some x, xs)
    else
      let (r, rest) := removeFirst p xs
      (r, x :: rest)

/-- The candidate predicate of the substring tier of
`delete_object_by_selector`. -/
def delSubstrCand (needle : String) (obj : Obj) : Bool :=
  is_prop obj ∧
    (pyContains (pyLower obj.key) needle ∨
      (pyLower obj.shortdesc ≠ "" ∧ pyContains (pyLower obj.shortdesc) needle))

/-- `room_object_query.delete_object_by_selector(room, selector)`: the returned
`{"key": ..., "dbref": ...}` pair (or `None`) together with the contents of the
room after the deletion. -/
def delete_object_by_selector (contents : List Obj) (selector : String) :
    Option (String × String) × List Obj :=
  let t := pyStrip selector
  if t = "" then (none, contents)
  else if isDbrefForm t then
    match removeFirst (fun obj => obj.dbref = t) contents with
    | (some obj, rest) => (some (obj.key, obj.dbref), rest)
    | (none, _) => (none, contents)
  else
    let needle := pyLower t
    -- exact match first
    match removeFirst
        (fun obj => is_prop obj ∧
          (needle = pyLower obj.key ∨ needle = pyLower obj.shortdesc)) contents with
    | (some obj, rest) => (some (obj.key, obj.dbref), rest)
    | (none, _) =>
      -- unique substring
      let candidates := contents.filter (delSubstrCand needle)
      if candidates.length = 1 then
        match removeFirst (delSubstrCand needle) contents with
        | (some obj, rest) => (some (obj.key, obj.dbref), rest)
        | (none, _) => (none, contents)
      else (none, contents)

/-! ## `utils/room_targeting.py` — the targeting resolver -/

/-- A character matched by the regex class `[a-z0-9]`. -/
def isLowerAlnum (c : Char) : Bool :=
  ('a' ≤ c ∧ c ≤ 'z') ∨ ('0' ≤ c ∧ c ≤ '9')

theorem length_dropWhile_le' {α : Type} (p : α → Bool) (l : List α) :
    (l.dropWhile p).length ≤ l.length := by
  induction l with
  | nil => simp [List.dropWhile]
  | cons c cs ih =>
    simp only [List.dropWhile]
    split
    · exact Nat.le_succ_of_le ih
    · simp

/-- Fuel-driven worker for `alnumRuns` (structural recursion on the fuel so
that the kernel can evaluate it; the fuel never runs out when it starts at
the length of the list). -/
def alnumRunsAux : Nat → List Char → List String
  | _, [] => []
  | 0, _ :: _ => []
  | fuel + 1, c :: cs =>
    if isLowerAlnum c then
      String.mk (c :: cs.takeWhile isLowerAlnum) ::
        alnumRunsAux fuel (cs.dropWhile isLowerAlnum)
    else alnumRunsAux fuel cs

/-- `re.findall(r"[a-z0-9]+", s)`: the maximal runs of `[a-z0-9]` characters. -/
def alnumRuns (l : List Char) : List String := alnumRunsAux l.length l

/-- `room_targeting._words(s)`: lowercase, take alphanumeric runs, keep those
of length ≥ 3. -/
def targetingWords (s : String) : List String :=
  (alnumRuns (pyLower s).toList).filter (fun w => w.length ≥ 3)

/-- `re.sub(r"^(a|an|the)\s+", "", s)` (on already-lowercased input, or with
`re.IGNORECASE`): drop a leading article together with the whitespace run that
follows it.  The alternation can only ever match one of the three articles,
because the article is delimited by the first whitespace character. -/
def stripLeadingArticle (s : String) : String :=
  let l := (pyLower s).toList
  let tryArt (art : List Char) : Option (List Char) :=
    if art.isPrefixOf l ∧ isPyWs ((l.drop art.length).headD 'x') then
      some ((s.toList.drop art.length).dropWhile isPyWs)
    else none
  match tryArt "a".toList with
  | some r => String.mk r
  | none =>
    match tryArt "an".toList with
    | some r => String.mk r
    | none =>
      match tryArt "the".toList with
      | some r => String.mk r
      | none => s

/-- A regex word character (`\w`): the inputs are ASCII, so letters, digits
and underscore. -/
def isWordChar (c : Char) : Bool := c.isAlpha ∨ c.isDigit ∨ c = '_'

/-- `\b` holds between the previous character and the start of a word-char
token. -/
def boundaryBefore : Option Char → Bool
  | none => true
  | some c => ¬ isWordChar c

/-- `\b` holds between the end of a word-char token and what follows. -/
def boundaryAfter : List Char → Bool
  | [] => true
  | c :: _ => ¬ isWordChar c

/-- Helper for `wholeWordIn`: scan every position of `rest`, remembering the
previous character. -/
def wwAux (tok : List Char) : Option Char → List Char → Bool
  | prev, rest =>
    (boundaryBefore prev ∧ tok.isPrefixOf rest ∧ boundaryAfter (rest.drop tok.length)) ||
    match rest with
    | [] => false
    | c :: cs => wwAux tok (some c) cs

/-- `re.search(rf"\b{re.escape(w)}\b", text)` for a non-empty alphanumeric
token `w` (the only tokens the code searches for): `w` occurs in `text`
delimited by word boundaries. -/
def wholeWordIn (text : String) (tok : String) : Bool :=
  wwAux tok.toList none text.toList

/-- `re.search(r"(#\d+)", text)`: the first `#` that is followed by at least
one digit, captured together with the maximal digit run after it. -/
def findDbrefAnywhere : List Char → Option String
  | [] => none
  | c :: rest =>
    if c = '#' then
      let ds := rest.takeWhile Char.isDigit
      if ds = [] then findDbrefAnywhere rest
      else some (String.mk ('#' :: ds))
    else findDbrefAnywhere rest

/-- The token set and hit count of one object in the scoring loop of
`resolve_edit_target`: `set(_words(key)) | set(_words(sd_no_article))`, then
the number of tokens occurring as whole words in the instruction. -/
def targetScore (low : String) (obj : Obj) : Nat :=
  let key := pyStrip obj.key
  let sd := pyStrip obj.shortdesc
  let sd_no_article := pyStrip (stripLeadingArticle sd)
  let tokens := (targetingWords key ++ targetingWords sd_no_article).dedup
  (tokens.filter (fun w => wholeWordIn low w)).length

/-- The body of the scoring loop of `resolve_edit_target` for one object:
skip exits, characters and non-notable objects, and objects with zero hits
(`if hits > 0: scored.append((hits, obj))`). -/
def scoreEntry (low : String) (obj : Obj) : Option (Nat × Obj) :=
  if is_exit obj then none
  else if is_character obj then none
  else if ¬ obj.notable then none
  else
    let hits := targetScore low obj
    if hits > 0 then some (hits, obj) else none

/-- The selection tail of `resolve_edit_target`: `scored.sort(reverse=True)`
(a stable sort on the score, descending), `best_score = scored[0][0]`,
`best = [o for s, o in scored if s == best_score]`, unique winner or
ambiguity list. -/
def pickBest (scored : List (Nat × Obj)) : Option Obj × List Obj :=
  if scored = [] then (none, [])
  else
    let sorted := scored.mergeSort (fun a b => decide (b.fst ≤ a.fst))
    let best_score := (sorted.head?.map (·.fst)).getD 0
    let best := (sorted.filter (fun so => so.fst = best_score)).map (·.snd)
    if best.length = 1 then (best.head?, []) else (none, best)

/-- `room_targeting.resolve_edit_target(room, instruction)`:
`(target_obj_or_none, ambiguity_list)`. -/
def resolve_edit_target (room : Room) (instruction : String) :
    Option Obj × List Obj :=
  let text := pyStrip instruction
  if text = "" then (none, [])
  else
    match findDbrefAnywhere text.toList with
    | some dbref =>
      match room.contents.find? (fun obj => obj.dbref = dbref) with
      | some obj => (some obj, [])
      | none => (none, [])
    | none =>
      let low := pyLower text
      let scored := room.contents.filterMap (scoreEntry low)
      pickBest scored

/-- The stopword set of `instruction_mentions_target`. -/
def mentionStopwords : List String :=
  ["a", "an", "the", "of", "to", "and", "in", "on", "with", "from", "into",
   "more", "make", "change"]

/-- The filtered name-ish token set of a target in
`instruction_mentions_target`. -/
def mentionTokens (target : Obj) : List String :=
  let key := pyLower target.key
  let sd := pyStrip (stripLeadingArticle (pyLower target.shortdesc))
  ((alnumRuns key.toList ++ alnumRuns sd.toList).dedup).filter
    (fun t => t.length ≥ 4 ∧ ¬ mentionStopwords.contains t)

/-- `room_targeting.instruction_mentions_target(instruction, target)`. -/
def instruction_mentions_target (instruction : String) (target : Obj) : Bool :=
  let text := pyLower instruction
  if (findDbrefAnywhere text.toList).isSome then true
  else (mentionTokens target).any (fun t => wholeWordIn text t)

/-! ## JSON values and a model of Python's `json.loads`

`json.loads` is standard-library code, not part of this repository; it is
modelled here by an executable recursive-descent parser over the JSON fragment
the claims exercise: `null`, booleans, integer numerals, strings (with the
usual single-character escapes), arrays and objects.  Non-integer numerals are
outside the model.  The model is only ever evaluated on concrete documents. -/

inductive JsonVal where
  | jnull
  | jbool (b : Bool)
  | jnum (n : Int)
  | jstr (s : String)
  | jarr (xs : List JsonVal)
  | jobj (kvs : List (String × JsonVal))

/-- JSON insignificant whitespace. -/
def isJsonWs (c : Char) : Bool := c = ' ' ∨ c = '\t' ∨ c = '\n' ∨ c = '\r'

def skipJsonWs (l : List Char) : List Char := l.dropWhile isJsonWs

/-- Parse the body of a JSON string after the opening quote. -/
def parseStringBody : List Char → Option (String × List Char)
  | [] => none
  | '"' :: rest => some ("", rest)
  | '\\' :: e :: rest => do
    let c ← match e with
      | '"' => some '"'
      | '\\' => some '\\'
      | '/' => some '/'
      | 'n' => some '\n'
      | 't' => some '\t'
      | 'r' => some '\r'
      | 'b' => some '\x08'
      | 'f' => some '\x0c'
      | _ => none
    let (s, rest') ← parseStringBody rest
    some (String.mk (c :: s.toList), rest')
  | c :: rest => do
    let (s, rest') ← parseStringBody rest
    some (String.mk (c :: s.toList), rest')

/-- Parse a nonempty digit run as a natural number. -/
def parseNatNum (l : List Char) : Option (Nat × List Char) :=
  let ds := l.takeWhile Char.isDigit
  if ds = [] then none
  else some (ds.foldl (fun n c => n * 10 + (c.toNat - '0'.toNat)) 0, l.dropWhile Char.isDigit)

mutual

def parseValue : Nat → List Char → Option (JsonVal × List Char)
  | 0, _ => none
  | Nat.succ fuel, cs =>
    match skipJsonWs cs with
    | 'n' :: 'u' :: 'l' :: 'l' :: rest => some (.jnull, rest)
    | 't' :: 'r' :: 'u' :: 'e' :: rest => some (.jbool true, rest)
    | 'f' :: 'a' :: 'l' :: 's' :: 'e' :: rest => some (.jbool false, rest)
    | '"' :: rest => (parseStringBody rest).map (fun p => (.jstr p.fst, p.snd))
    | '[' :: rest =>
      (match skipJsonWs rest with
       | ']' :: rest2 => some (.jarr [], rest2)
       | rest2 => (parseElems fuel rest2).map (fun p => (.jarr p.fst, p.snd)))
    | '{' :: rest =>
      (match skipJsonWs rest with
       | '}' :: rest2 => some (.jobj [], rest2)
       | rest2 => (parseMembers fuel rest2).map (fun p => (.jobj p.fst, p.snd)))
    | '-' :: rest => (parseNatNum rest).map (fun p => (.jnum (-(p.fst : Int)), p.snd))
    | rest => (parseNatNum rest).map (fun p => (.jnum (p.fst : Int), p.snd))

def parseElems : Nat → List Char → Option (List JsonVal × List Char)
  | 0, _ => none
  | Nat.succ fuel, cs => do
    let (v, rest) ← parseValue fuel cs
    match skipJsonWs rest with
    | ',' :: rest2 => (parseElems fuel rest2).map (fun p => (v :: p.fst, p.snd))
    | ']' :: rest2 => some ([v], rest2)
    | _ => none

def parseMembers : Nat → List Char → Option (List (String × JsonVal) × List Char)
  | 0, _ => none
  | Nat.succ fuel, cs =>
    match skipJsonWs cs with
    | '"' :: rest => do
      let (k, rest1) ← parseStringBody rest
      match skipJsonWs rest1 with
      | ':' :: rest2 => do
        let (v, rest3) ← parseValue fuel rest2
        match skipJsonWs rest3 with
        | ',' :: rest4 => (parseMembers fuel rest4).map (fun p => ((k, v) :: p.fst, p.snd))
        | '}' :: rest4 => some ([(k, v)], rest4)
        | _ => none
      | _ => none
    | _ => none

end

/-- The model of Python `json.loads(s)`: parse one value with nothing but
whitespace around it; `none` models a raised `JSONDecodeError`. -/
def json_loads (s : String) : Option JsonVal := do
  let cs := s.toList
  let (v, rest) ← parseValue (2 * cs.length + 8) cs
  if skipJsonWs rest = [] then some v else none

/-- `re.search(r"\{.*\}", t, flags=re.DOTALL)`: the span from the first `{`
to the last `}`, provided some `}` occurs strictly after the first `{`. -/
def braceSpan (l : List Char) : Option (List Char) := do
  let i ← l.findIdx? (fun c => c = '{')
  let jrev ← l.reverse.findIdx? (fun c => c = '}')
  let j := l.length - 1 - jrev
  if i < j then some ((l.drop i).take (j - i + 1)) else none

/-! ## `utils/llm_client.py` -/

structure LLMProvider where
  label : String
  base_url : String
  model : String
  api_key : Option String := none
  deriving DecidableEq, Repr

/-- `LLMClient._extract_json_from_text(text, label)` (the diagnostic logging
is pure observability and is not modelled).  Returns the parsed JSON object
(its key/value list) or `None`. -/
def extract_json_from_text (text : String) : Option (List (String × JsonVal)) :=
  let t := pyStrip text
  -- strict: if json.loads succeeds, the result is final (dict or None)
  match json_loads t with
  | some (.jobj kvs) => some kvs
  | some _ => none
  | none =>
    -- extract first {...} block
    match braceSpan t.toList with
    | none => none
    | some span =>
      match json_loads (String.mk span) with
      | some (.jobj kvs) => some kvs
      | _ => none

/-- The outcome of one full per-provider call
(`LLMClient._call_chat_completions_json`): the call either raises (the string
is the exception's rendering) or returns, possibly `None` after exhausting its
retry budget. -/
inductive CallOutcome (α : Type) where
  | raises (exc : String)
  | returns (out : Option α)

/-- The message of the `RuntimeError` raised when a provider returns `None`. -/
def noJsonExcMsg : String := "Provider returned no JSON (None)"

/-- The error-log entry emitted when a provider fails. -/
def failLog (label exc : String) : String :=
  "[LLM:" ++ label ++ "] Provider-level exception: " ++ exc

/-- `repr` of the `last_exc` variable in the aggregate error message. -/
def optExcRepr : Option String → String
  | none => "None"
  | some e => e

/-- The exception a provider's attempt contributes as `last_exc`, if any. -/
def excOf {α : Type} : CallOutcome α → Option String
  | .raises e => some e
  | .returns none => some noJsonExcMsg
  | .returns (some _) => none

/-- The provider loop of `LLMClient.chat_json`, carrying `last_exc` and the
error log.  (The info-level provider-order log line is not modelled.) -/
def chatJsonGo {α : Type} (call : LLMProvider → CallOutcome α) :
    List LLMProvider → Option String → List String → Except String α × List String
  | [], last_exc, logs =>
    (.error ("All LLM providers failed. Last exception: " ++ optExcRepr last_exc), logs)
  | p :: rest, _last_exc, logs =>
    match call p with
    | .returns (some out) => (.ok out, logs)
    | .returns none =>
      chatJsonGo call rest (some noJsonExcMsg) (logs ++ [failLog p.label noJsonExcMsg])
    | .raises exc => chatJsonGo call rest (some exc) (logs ++ [failLog p.label exc])

/-- `LLMClient.chat_json(providers, messages)`: the per-provider call is
abstracted as `call` (it performs HTTP, retries and JSON extraction; the
dispatch logic under verification never inspects it).  `.error` models the
raised `RuntimeError`; the second component is the error log. -/
def chat_json {α : Type} (call : LLMProvider → CallOutcome α)
    (providers : List LLMProvider) : Except String α × List String :=
  chatJsonGo call providers none []

/-! ## `SmartRoom._start_desc_rewrite` — completion handling (`_on_ok`) -/

/-- The room state the director completion callback touches. -/
structure DirectorRoom where
  auto_desc : Bool
  desc : String
  last_generated_desc : String
  director_facts : List JsonVal

/-- Python truthiness of a JSON-shaped value. -/
def jsonTruthy : JsonVal → Bool
  | .jnull => false
  | .jbool b => b
  | .jnum n => n ≠ 0
  | .jstr s => s ≠ ""
  | .jarr xs => ¬ xs.isEmpty
  | .jobj kvs => ¬ kvs.isEmpty

/-- `data.get(k)` on a parsed JSON object. -/
def jget (kvs : List (String × JsonVal)) (k : String) : Option JsonVal :=
  (kvs.find? (fun kv => kv.fst = k)).map (·.snd)

/-- `(data.get("desc") or "").strip()`: `none` models the `AttributeError`
raised when the field holds a truthy non-string. -/
def descFieldStripped (kvs : List (String × JsonVal)) : Option String :=
  match jget kvs "desc" with
  | none => some ""
  | some v =>
    if jsonTruthy v then
      match v with
      | .jstr s => some (pyStrip s)
      | _ => none
    else some ""

/-- `data.get("facts") or []`. -/
def factsFieldOrEmpty (kvs : List (String × JsonVal)) : JsonVal :=
  match jget kvs "facts" with
  | none => .jarr []
  | some v => if jsonTruthy v then v else .jarr []

/-- The `_on_ok` success callback of `SmartRoom._start_desc_rewrite`, as the
update it performs on the room state; `none` models a raised exception
(non-dict result, or a truthy non-string `desc` field), which lands in the
errback.  (Clearing `ndb.desc_rewrite_inflight` and the broadcast are
transient effects outside this state.) -/
def director_on_ok (st : DirectorRoom) (data : JsonVal) : Option DirectorRoom :=
  if ¬ st.auto_desc then some st
  else
    match data with
    | .jobj kvs => do
      let new_desc ← descFieldStripped kvs
      let facts := factsFieldOrEmpty kvs
      if new_desc ≠ "" ∧ new_desc ≠ st.desc then
        some { st with
          desc := new_desc
          last_generated_desc := new_desc
          director_facts :=
            match facts with
            | .jarr xs => xs
            | _ => st.director_facts }
      else some st
    | _ => none

/-! ## `utils/room_text.py` -/

/-- `room_text.normalize_say_message(message)`. -/
def normalize_say_message (message : String) : String :=
  let msg := pyStrip message
  if msg = "" then ""
  else pyStrip (pyLStripChars (pyStripChars msg [' ', '"', '\'']) [' ', ',', ':', ';'])

/-- `room_text.is_computer_addressed(normalized)`. -/
def is_computer_addressed (normalized : String) : Bool :=
  let low := pyLower normalized
  pyStartsWith low "computer " ∨ pyStartsWith low "computer:" ∨ pyStartsWith low "computer,"

/-- `room_text.extract_computer_instruction(normalized)`. -/
def extract_computer_instruction (normalized : String) : String :=
  if normalized = "" then ""
  else if ¬ is_computer_addressed normalized then ""
  else pyStrip (pyLStripChars (String.mk (normalized.toList.drop 8)) [' ', ':', ','])

/-! ## `SmartRoom.handle_speech` — the speech dispatcher

The dispatcher is modelled as a pure function from the room state, the
speaker's name, the raw message, the current `time.time()` value and the
random hex suffix used by `new_fact`, to the new room state plus the
observable effects of the call: messages to the speaker, broadcasts to the
room, the background LLM task launched via `deferToThread` (if any), and
whether a description rewrite was scheduled.  A `none` result models an
exception escaping the handler (only the facts-listing branch can raise, on a
non-dict stored entry). -/

/-- A background LLM task handed to `deferToThread`. -/
inductive Launch where
  | editProp (speaker instruction dbref : String)
  | createProp (speaker remainder : String)
  | predictIntent (speaker instruction : String)
  deriving DecidableEq, Repr

structure Effects where
  speakerMsgs : List String := []
  roomMsgs : List String := []
  launch : Option Launch := none
  rewriteScheduled : Bool := false
  deriving DecidableEq, Repr

/-- The persistent room state read and written by `handle_speech`. -/
structure RoomSt where
  contents : List Obj
  roomFacts : PyFacts
  last_llm_call_ts : ℚ
  memory : List (String × String)
  deriving DecidableEq, Repr

def LLM_COOLDOWN_SECONDS : ℚ := 2

def cooldownMsg : String := "|yThe room holds up a paw.|n Give it a second…"

/-- `str(value)` of an optional string field read with `.get` (`None` prints
as `None`). -/
def optPyStr : Option String → String
  | none => "None"
  | some s => s

/-- One `  {f.get('id')}: {f.get('text')}` line; `none` models the
`AttributeError` raised when the entry is not a dict. -/
def factLine (f : Fact) : Option String :=
  match f with
  | .fdict idv textv => some ("  " ++ optPyStr idv ++ ": " ++ optPyStr textv)
  | .other => none

/-- The per-object fact sections of the facts-listing branch (all `notable`
objects, last 10 facts each). -/
def objFactsLines (contents : List Obj) : Option (List String) := do
  let per ← contents.mapM (fun obj =>
    if ¬ obj.notable then pure []
    else
      let ofacts := get_facts obj.facts
      if ofacts ≠ [] then do
        let ls ← (pyLastN 10 ofacts).mapM factLine
        pure (("|w" ++ obj.key ++ " facts:|n") :: ls)
      else pure ([] : List String))
  pure per.flatten

/-- All lines of the facts-listing branch (room facts, last 15, then object
facts). -/
def allFactsLines (st : RoomSt) : Option (List String) := do
  let rf := get_facts st.roomFacts
  let roomLines ←
    if rf ≠ [] then do
      let ls ← (pyLastN 15 rf).mapM factLine
      pure ("|wRoom facts:|n" :: ls)
    else pure ([] : List String)
  let objLines ← objFactsLines st.contents
  pure (roomLines ++ objLines)

/-- `^verb\b` as one alternative of the dispatch regexes: `verb` is a literal
word, so the trailing `\b` demands a non-word character (or the end) after
it. -/
def vbFull (verb : String) (l : List Char) : Bool :=
  verb.toList.isPrefixOf l ∧ boundaryAfter (l.drop verb.length)

/-- `(.*)\$` with `.` not matching newlines: succeeds exactly when the only
newline in `l`, if any, is its final character. -/
def dotStarEndOk (l : List Char) : Bool :=
  ¬ l.contains '\n' ∨ (l.getLast? = some '\n' ∧ ¬ l.dropLast.contains '\n')

def editVerbs : List String := ["edit", "update", "change", "recolor", "paint"]
def destroyVerbs : List String := ["destroy", "delete", "remove"]
def createVerbs : List String := ["create", "make", "manifest", "summon"]

/-- `re.match(r"^(v1|...|vn)\b(.*)$", l)`: the matched verb, if any.  At most
one alternative can be a prefix of `l`, since no verb is a prefix of
another. -/
def matchVerbRest (verbs : List String) (l : List Char) : Option String :=
  verbs.find? (fun v => vbFull v l ∧ dotStarEndOk (l.drop v.length))

/-- `re.match(r"^(v1|...|vn)\b", l)` (no trailing `(.*)$`). -/
def matchVerbOnly (verbs : List String) (l : List Char) : Option String :=
  verbs.find? (fun v => vbFull v l)

/-- `re.match(r"^unpin\s+([a-zA-Z0-9_]+)$", instruction.strip(),
flags=re.IGNORECASE)`: the captured id (in its original case). -/
def unpinMatch (instruction : String) : Option String :=
  let orig := (pyStrip instruction).toList
  let low := orig.map Char.toLower
  if "unpin".toList.isPrefixOf low then
    let ws := ((low.drop 5).takeWhile isPyWs).length
    let rest := orig.drop (5 + ws)
    if ws ≥ 1 ∧ rest ≠ [] ∧ rest.all isWordChar then some (String.mk rest)
    else none
  else none

/-- `re.match(r"^pin\s+(.+)$", instruction.strip(), flags=re.IGNORECASE)`:
the captured remainder. -/
def pinMatch (instruction : String) : Option String :=
  let orig := (pyStrip instruction).toList
  let low := orig.map Char.toLower
  if "pin".toList.isPrefixOf low then
    let ws := ((low.drop 3).takeWhile isPyWs).length
    let rest := orig.drop (3 + ws)
    if ws ≥ 1 ∧ rest ≠ [] ∧ ¬ rest.contains '\n' then some (String.mk rest)
    else none
  else none

/-- `re.split(r"\s+to\s+", rest, maxsplit=1, flags=re.IGNORECASE)` at the
leftmost match: a maximal whitespace run, `to` (caseless), and at least one
more whitespace character.  `pre` is the already-scanned head, reversed. -/
def splitToAux (pre l : List Char) : Option (List Char × List Char) :=
  match l with
  | [] => none
  | c :: rest =>
    (if isPyWs c then
      match l.dropWhile isPyWs with
      | t :: o :: r :: _ =>
        if t.toLower = 't' ∧ o.toLower = 'o' ∧ isPyWs r then
          some (pre.reverse, ((l.dropWhile isPyWs).drop 2).dropWhile isPyWs)
        else splitToAux (c :: pre) rest
      | _ => splitToAux (c :: pre) rest
    else splitToAux (c :: pre) rest)

/-- The `" to "`-split of the pin branch: only performed when `" to "` occurs
as a substring of the lowercased remainder. -/
def pinSplit (rest : String) : String × Option String :=
  if pyContains (pyLower rest) " to " then
    match splitToAux [] rest.toList with
    | some (l, r) => (String.mk l, some (String.mk r))
    | none => (rest, none)
  else (rest, none)

/-- `re.sub(r"^(create|make|manifest|summon)\s+", "", instruction,
flags=re.IGNORECASE)`. -/
def stripCreateVerb (instruction : String) : String :=
  let l := instruction.toList
  let low := l.map Char.toLower
  match createVerbs.find?
      (fun v => v.toList.isPrefixOf low ∧ isPyWs ((low.drop v.length).headD 'x')) with
  | some v => String.mk ((l.drop v.length).dropWhile isPyWs)
  | none => instruction

/-- Append a fact to the first object with the given dbref (dbrefs are unique
in the world model, so this is the object `find_object_in_room` returned). -/
def addFactToObj (contents : List Obj) (dbref : String) (f : Fact) : List Obj :=
  match contents with
  | [] => []
  | o :: rest =>
    if o.dbref = dbref then { o with facts := add_fact o.facts f } :: rest
    else o :: addFactToObj rest dbref f

/-- The body of `SmartRoom.handle_speech` from the point where the instruction
text has been extracted (everything after line 233 of `rooms.py`). -/
def dispatchInstruction (st : RoomSt) (speaker instruction : String) (now : ℚ)
    (fresh : String) : Option (RoomSt × Effects) :=
  let lowinst := pyLower (pyStrip instruction)
  -- ---- LIST FACTS ----
  if lowinst = "facts" ∨ lowinst = "list facts" ∨ lowinst = "show facts" then
    match allFactsLines st with
    | none => none
    | some lines =>
      if lines = [] then
        some (st, { speakerMsgs :=
          ["No pinned facts yet. Try: |wsay computer, pin This is a seaside lounge.|n"] })
      else some (st, { speakerMsgs := [String.intercalate "\n" lines] })
  else
    -- ---- UNPIN (room only) ----
    match unpinMatch instruction with
    | some fid =>
      let (ok, facts') := remove_fact st.roomFacts fid
      if ok then
        some ({ st with roomFacts := facts' },
          { roomMsgs := ["|mThe room nods.|n Unpinned " ++ fid ++ "."],
            rewriteScheduled := true })
      else
        some ({ st with roomFacts := facts' },
          { speakerMsgs :=
            ["I can't find a room fact with id '" ++ fid ++ "'. Try: |wsay computer, facts|n"] })
    | none =>
    -- ---- PIN ----
    match pinMatch instruction with
    | some rest0 =>
      let rest := pyStrip rest0
      let (fact_text0, target_text) := pinSplit rest
      let fact_text := pyStrip fact_text0
      let target_text := target_text.map pyStrip
      if fact_text = "" then
        some (st, { speakerMsgs := ["Try: |wsay computer, pin This is a seaside lounge.|n"] })
      else
        let pinned (st' : RoomSt) : Option (RoomSt × Effects) :=
          some (st',
            { roomMsgs := ["|mThe room remembers.|n Pinned: “" ++ fact_text ++ "”"],
              rewriteScheduled := true })
        match target_text with
        | some tt =>
          if tt = "" then
            pinned { st with roomFacts := add_fact st.roomFacts (new_fact fact_text fresh) }
          else
            match find_object_in_room ⟨st.contents⟩ tt with
            | none =>
              some (st, { speakerMsgs := ["I couldn't find '" ++ tt ++ "' to pin that to."] })
            | some obj =>
              pinned { st with
                contents := addFactToObj st.contents obj.dbref (new_fact fact_text fresh) }
        | none =>
          pinned { st with roomFacts := add_fact st.roomFacts (new_fact fact_text fresh) }
    | none =>
    -- ---- DESTROY ----
    match matchVerbRest destroyVerbs lowinst.toList with
    | some verb =>
      let remainder0 := pyStrip (String.mk ((pyStrip instruction).toList.drop verb.length))
      let remainder := pyStrip (stripLeadingArticle remainder0)
      if remainder = "" then
        some (st, { speakerMsgs :=
          ["Tell me what to destroy, e.g. |wsay computer, destroy Thorned Yuletide Sentinel|n"] })
      else
        let (removed, contents') := delete_object_by_selector st.contents remainder
        match removed with
        | some kd =>
          some ({ st with contents := contents' },
            { roomMsgs :=
                ["|mThe room complies.|n " ++ kd.fst ++ "(" ++ kd.snd ++ ") is removed."],
              rewriteScheduled := true })
        | none =>
          let opts := list_notables_with_dbref ⟨st.contents⟩
          some ({ st with contents := contents' },
            { speakerMsgs :=
              (if opts ≠ "" then ["|yIn this room I can remove:|n " ++ opts] else []) ++
              ["|yI couldn't find|n '" ++ remainder ++
                "'. Try the exact name, or copy a dbref from the list above (example format: |w#67|n)."] })
    | none =>
    -- ---- EDIT ----
    if (matchVerbRest editVerbs lowinst.toList).isSome then
      if now - st.last_llm_call_ts < LLM_COOLDOWN_SECONDS then
        some (st, { speakerMsgs := [cooldownMsg] })
      else
        let st := { st with last_llm_call_ts := now }
        let res := resolve_edit_target ⟨st.contents⟩ instruction
        let ta :=
          match res.fst with
          | some t =>
            if ¬ instruction_mentions_target instruction t then (none, ([] : List Obj))
            else (some t, res.snd)
          | none => (none, res.snd)
        match ta.fst with
        | none =>
          let opts := list_notables_with_dbref ⟨st.contents⟩
          if ta.snd ≠ [] then
            let amb := String.intercalate ", "
              ((ta.snd.take 12).map (fun o => o.key ++ "(" ++ o.dbref ++ ")"))
            some (st, { speakerMsgs :=
              ["|yWhich one did you mean?|n Use a dbref, e.g. |wsay computer, change #67 to be blue|n\nI see: " ++ amb] })
          else if opts ≠ "" then
            some (st, { speakerMsgs :=
              ["I couldn't tell what object you meant. Use a dbref like |w#67|n.\nI see: " ++ opts] })
          else
            some (st, { speakerMsgs :=
              ["I couldn't tell what object you meant. Try including its name or a dbref like |w#67|n."] })
        | some t =>
          some (st,
            { roomMsgs := ["|mThe room studies the object, considering your request…|n"],
              launch := some (.editProp speaker instruction t.dbref) })
    else
    -- ---- CREATE ----
    if (matchVerbOnly createVerbs lowinst.toList).isSome then
      let remainder := pyStrip (stripCreateVerb instruction)
      if remainder = "" then
        some (st, { speakerMsgs := ["Try: say computer, create a brass cat idol"] })
      else if now - st.last_llm_call_ts < LLM_COOLDOWN_SECONDS then
        some (st, { speakerMsgs := [cooldownMsg] })
      else
        some ({ st with last_llm_call_ts := now },
          { roomMsgs := ["|mThe room listens.|n Something begins to take shape…"],
            launch := some (.createProp speaker remainder) })
    else
    -- ---- FALLBACK INTENT ROUTER ----
    if now - st.last_llm_call_ts < LLM_COOLDOWN_SECONDS then
      some (st, { speakerMsgs := [cooldownMsg] })
    else
      some ({ st with last_llm_call_ts := now },
        { roomMsgs := ["|mThe room tilts its head, interpreting…|n"],
          launch := some (.predictIntent speaker instruction) })

/-- `SmartRoom._remember(speaker, message)`: append to the rolling speech
buffer, keeping the last `MEMORY_MAX = 50` entries. -/
def remember (st : RoomSt) (speaker message : String) : RoomSt :=
  { st with memory := pyLastN 50 (st.memory ++ [(speaker, message)]) }

/-- `SmartRoom.handle_speech(speaker, message)`. -/
def handle_speech (st : RoomSt) (speaker message : String) (now : ℚ)
    (fresh : String) : Option (RoomSt × Effects) :=
  if message = "" then some (st, {})
  else
    let st := remember st speaker message
    let msg := pyStrip message
    if msg = "" then some (st, {})
    else
      let norm := normalize_say_message msg
      if ¬ is_computer_addressed norm then some (st, {})
      else
        let instruction := extract_computer_instruction norm
        if instruction = "" then
          some (st, { speakerMsgs := ["Try: say computer, create a brass cat idol"] })
        else dispatchInstruction st speaker instruction now fresh

/-! ## Claim C7 — `remove_fact` -/

/-- The entry is a dict whose `"id"` equals `fid`. -/
def factMatches (f : Fact) (fid : String) : Bool :=
  isDictFact f ∧ factIdOf f = some fid

theorem remove_fact_pylist (fs : List Fact) (fid : String) :
    remove_fact (.pylist fs) fid =
      (decide ((fs.filter fun f => isDictFact f ∧ factIdOf f ≠ some fid).length ≠ fs.length),
        .pylist (fs.filter fun f => isDictFact f ∧ factIdOf f ≠ some fid)) := rfl

/-- C7, counterexample: a stored list holding one non-dict entry, and an id
(`"y"`) matching no stored entry.  The claim demands `False` and an unchanged
list; the code drops the non-dict entry, returning `True` with the list
mutated to `[]`. -/
theorem c7_counterexample :
    (∀ f ∈ [Fact.other], factMatches f "y" = false) ∧
    remove_fact (.pylist [Fact.other]) "y" = (true, .pylist []) ∧
    PyFacts.pylist [Fact.other] ≠ PyFacts.pylist [] := by
  refine ⟨by decide, ?_, by decide⟩
  decide

/-- C7, amended: `remove_fact` keeps exactly the dict-typed entries whose id
differs from the given one and reports whether the length changed.  Hence
(1) on a list of dict entries none of which matches, it returns `False` and
leaves the list unchanged; (2) on a list of dict entries exactly one of which
matches, it returns `True` and the stored length decreases by exactly one
(non-dict entries are dropped by every call, so lists containing them can
shrink and report `True` even for an unmatched id); (3) a truthy non-list
stored value yields `False` with no mutation, while a falsy stored value
(`None`, or a falsy non-list) is normalized to the empty list, also with
`False`. -/
theorem c7_remove_fact_amended :
    (∀ (fs : List Fact) (fid : String),
      (∀ f ∈ fs, isDictFact f = true) → (∀ f ∈ fs, factMatches f fid = false) →
      remove_fact (.pylist fs) fid = (false, .pylist fs)) ∧
    (∀ (fs : List Fact) (fid : String),
      (∀ f ∈ fs, isDictFact f = true) →
      fs.countP (fun f => factMatches f fid) = 1 →
      (remove_fact (.pylist fs) fid).fst = true ∧
      ∃ fs', remove_fact (.pylist fs) fid = (true, .pylist fs') ∧
        fs'.length + 1 = fs.length) ∧
    (remove_fact (.pyother true) "x" = (false, .pyother true) ∧
      remove_fact .pynone "x" = (false, .pylist []) ∧
      remove_fact (.pyother false) "x" = (false, .pylist [])) := by
  refine ⟨?_, ?_, by decide, by decide, by decide⟩
  · intro fs fid hdict hmatch
    rw [remove_fact_pylist]
    have hfil : (fs.filter fun f => isDictFact f ∧ factIdOf f ≠ some fid) = fs := by
      apply List.filter_eq_self.mpr
      intro f hf
      have h1 := hdict f hf
      have h2 := hmatch f hf
      simp only [factMatches, decide_eq_false_iff_not] at h2
      simp only [decide_eq_true_eq]
      exact ⟨h1, fun h => h2 ⟨h1, h⟩⟩
    rw [hfil]
    simp
  · intro fs fid hdict hcount
    rw [remove_fact_pylist]
    have hfil : (fs.filter fun f => isDictFact f ∧ factIdOf f ≠ some fid) =
        fs.filter fun f => ¬ factMatches f fid := by
      apply List.filter_congr
      intro f hf
      have h1 := hdict f hf
      simp [factMatches, h1]
    have hlen : (fs.filter fun f => ¬ factMatches f fid).length + 1 = fs.length := by
      have h1 : (fs.filter fun f => ¬ factMatches f fid).length =
          fs.countP (fun f => ¬ factMatches f fid) := by
        rw [List.countP_eq_length_filter]
      have h2 := List.length_eq_countP_add_countP
        (p := fun f => factMatches f fid) (l := fs)
      omega
    rw [hfil]
    have hne : (fs.filter fun f => ¬ factMatches f fid).length ≠ fs.length := by omega
    refine ⟨decide_eq_true hne, (fs.filter fun f => ¬ factMatches f fid), ?_, hlen⟩
    rw [decide_eq_true hne]

/-- C7, witness for the amended theorem: a two-element all-dict list; removing
the id of the first entry returns `True` with length decreased by one, and a
missing id returns `False` with the list unchanged. -/
theorem c7_remove_fact_amended_witness :
    remove_fact (.pylist [.fdict (some "fact_1") (some "a"),
      .fdict (some "fact_2") (some "b")]) "fact_9" =
      (false, .pylist [.fdict (some "fact_1") (some "a"),
        .fdict (some "fact_2") (some "b")]) ∧
    (remove_fact (.pylist [.fdict (some "fact_1") (some "a"),
      .fdict (some "fact_2") (some "b")]) "fact_1").fst = true :=
  ⟨c7_remove_fact_amended.1 _ "fact_9" (by decide) (by decide),
    (c7_remove_fact_amended.2.1 _ "fact_1" (by decide) (by decide)).1⟩

/-! ## Claim C8 — `ensure_affordance`

Association-list lemmas for the Python-dict model, then the characterization
of `ensure_affordance`. -/

/-- First-defined-wins combination of two lookups (what a lookup in a merged
dict sees). -/
def dgetOr (x y : Option AffVal) : Option AffVal :=
  match x with
  | some v => some v
  | none => y

@[simp] theorem dget_nil (k : String) : dget [] k = none := rfl

theorem dget_cons (k₀ k : String) (v₀ : AffVal) (d : AffDict) :
    dget ((k₀, v₀) :: d) k = if k₀ = k then some v₀ else dget d k := by
  simp only [dget, List.find?_cons]
  split
  · rename_i h
    simp only [decide_eq_true_eq] at h
    simp [h, Option.map_some]
  · rename_i h
    simp only [decide_eq_false_iff_not] at h
    simp [h]

theorem dhas_eq_isSome (d : AffDict) (k : String) :
    dhas d k = (dget d k).isSome := by
  induction d with
  | nil => rfl
  | cons kv rest ih =>
    obtain ⟨k₀, v₀⟩ := kv
    rw [dget_cons]
    by_cases h : k₀ = k
    · simp [dhas, h]
    · simp only [dhas, List.any_cons] at *
      simp [h, ih]

/-- A present binding makes `dhas` true. -/
theorem dhas_of_mem (d : AffDict) (kv : String × AffVal) (hm : kv ∈ d) :
    dhas d kv.fst = true := by
  simp only [dhas, List.any_eq_true]
  exact ⟨kv, hm, by simp⟩

theorem dget_append (a b : AffDict) (k : String) :
    dget (a ++ b) k = dgetOr (dget a k) (dget b k) := by
  induction a with
  | nil => rfl
  | cons kv rest ih =>
    obtain ⟨k₀, v₀⟩ := kv
    rw [List.cons_append, dget_cons, dget_cons]
    by_cases h : k₀ = k
    · simp [h, dgetOr]
    · simp [h, ih]

theorem dget_dsetAbsent (d : AffDict) (k' k : String) (v : AffVal) :
    dget (dsetAbsent d k' v) k =
      dgetOr (dget d k) (if dhas d k' then none else if k' = k then some v else none) := by
  unfold dsetAbsent
  by_cases h : dhas d k'
  · rw [if_pos h, if_pos h]
    cases hg : dget d k <;> simp [dgetOr, hg]
  · rw [if_neg h, if_neg h, dget_append]
    congr 1
    rw [dget_cons]
    split <;> rfl

/-- What a key lookup sees after the fill-missing-only fold of
`ensure_affordance`. -/
theorem dget_foldl_dsetAbsent (bs : AffDict) :
    ∀ (a : AffDict) (k : String),
      dget (bs.foldl (fun acc kv => dsetAbsent acc kv.fst kv.snd) a) k =
        dgetOr (dget a k) (dget bs k) := by
  induction bs with
  | nil => intro a k; cases hg : dget a k <;> simp [dgetOr, hg]
  | cons kv rest ih =>
    intro a k
    obtain ⟨k₀, v₀⟩ := kv
    rw [List.foldl_cons, ih, dget_dsetAbsent, dget_cons, dhas_eq_isSome]
    by_cases hk : k₀ = k
    · subst hk
      cases hg : dget a k₀ <;> simp [dgetOr, hg]
    · cases hg : dget a k <;> cases hg₀ : dget a k₀ <;>
        simp [dgetOr, hg, hg₀, hk]

theorem foldl_dsetAbsent_of_all_present (bs : AffDict) :
    ∀ (a : AffDict), (∀ kv ∈ bs, dhas a kv.fst = true) →
      bs.foldl (fun acc kv => dsetAbsent acc kv.fst kv.snd) a = a := by
  induction bs with
  | nil => intro a _; rfl
  | cons kv rest ih =>
    intro a hall
    obtain ⟨k₀, v₀⟩ := kv
    rw [List.foldl_cons]
    have h0 : dhas a k₀ = true := hall (k₀, v₀) (by simp)
    have hset : dsetAbsent a k₀ v₀ = a := by simp [dsetAbsent, h0]
    rw [hset]
    exact ih a (fun kv hkv => hall kv (by simp [hkv]))

theorem dget_map_replace_same (k : String) (v : AffVal) :
    ∀ (d : AffDict), dhas d k = true →
      dget (d.map (fun kv => if kv.fst = k then (k, v) else kv)) k = some v := by
  intro d
  induction d with
  | nil => intro h; simp [dhas] at h
  | cons kv rest ih =>
    intro h
    obtain ⟨k₀, v₀⟩ := kv
    by_cases hk : k₀ = k
    · simp [List.map_cons, hk, dget_cons]
    · rw [List.map_cons]
      have h0 : (if (k₀, v₀).fst = k then (k, v) else (k₀, v₀)) = (k₀, v₀) := by
        simp [hk]
      rw [h0, dget_cons, if_neg hk]
      apply ih
      simp only [dhas, List.any_cons] at h
      rcases Bool.or_eq_true_iff.mp h with h1 | h1
      · exact absurd (of_decide_eq_true h1) hk
      · exact h1

theorem dget_map_replace_other (k k' : String) (v : AffVal) (hne : k' ≠ k) :
    ∀ (d : AffDict),
      dget (d.map (fun kv => if kv.fst = k then (k, v) else kv)) k' = dget d k' := by
  intro d
  induction d with
  | nil => rfl
  | cons kv rest ih =>
    obtain ⟨k₀, v₀⟩ := kv
    rw [List.map_cons]
    by_cases hk : k₀ = k
    · subst hk
      have h0 : (if (k₀, v₀).fst = k₀ then (k₀, v) else (k₀, v₀)) = (k₀, v) := by simp
      rw [h0, dget_cons, dget_cons,
        if_neg (fun h => hne h.symm), if_neg (fun h => hne h.symm)]
      exact ih
    · have h0 : (if (k₀, v₀).fst = k then (k, v) else (k₀, v₀)) = (k₀, v₀) := by
        simp [hk]
      rw [h0, dget_cons, dget_cons]
      by_cases hk' : k₀ = k'
      · rw [if_pos hk', if_pos hk']
      · rw [if_neg hk', if_neg hk']
        exact ih

theorem dget_dset_same (d : AffDict) (k : String) (v : AffVal) :
    dget (dset d k v) k = some v := by
  unfold dset
  by_cases h : dhas d k
  · rw [if_pos h]
    exact dget_map_replace_same k v d h
  · rw [if_neg h, dget_append]
    rw [dhas_eq_isSome] at h
    cases hg : dget d k
    · simp [dgetOr, dget_cons]
    · simp [hg] at h

theorem dget_dset_other (d : AffDict) (k k' : String) (v : AffVal) (hne : k' ≠ k) :
    dget (dset d k v) k' = dget d k' := by
  unfold dset
  by_cases h : dhas d k
  · rw [if_pos h]
    exact dget_map_replace_other k k' v hne d
  · rw [if_neg h, dget_append, dget_cons]
    rw [if_neg (fun hkk => hne hkk.symm)]
    cases hg : dget d k' <;> simp [dgetOr, hg]

theorem dhas_dset (d : AffDict) (k k' : String) (v : AffVal) :
    dhas (dset d k v) k' = (dhas d k' ∨ k = k') := by
  by_cases hk : k = k'
  · subst hk
    rw [dhas_eq_isSome, dget_dset_same]
    simp
  · rw [dhas_eq_isSome, dget_dset_other d k k' v (fun h => hk h.symm),
      ← dhas_eq_isSome]
    simp [hk]

/-- After `dset d k v`, every binding of `k` carries `v`. -/
theorem dset_uniform (d : AffDict) (k : String) (v : AffVal) :
    ∀ kv ∈ dset d k v, kv.fst = k → kv.snd = v := by
  unfold dset
  by_cases h : dhas d k
  · rw [if_pos h]
    intro kv hkv hfst
    obtain ⟨kv₀, hkv₀, hmap⟩ := List.mem_map.mp hkv
    by_cases hk : kv₀.fst = k
    · rw [if_pos hk] at hmap
      rw [← hmap]
    · rw [if_neg hk] at hmap
      exact absurd (hmap ▸ hfst) hk
  · rw [if_neg h]
    intro kv hkv hfst
    rcases List.mem_append.mp hkv with hmem | hmem
    · exact absurd (hfst ▸ dhas_of_mem d kv hmem) h
    · simp only [List.mem_singleton] at hmem
      rw [hmem]

/-- If every binding of `k` in `d` already carries `v`, and `k` is present,
then `dset d k v` is a no-op. -/
theorem dset_self (d : AffDict) (k : String) (v : AffVal)
    (huni : ∀ kv ∈ d, kv.fst = k → kv.snd = v) (hhas : dhas d k = true) :
    dset d k v = d := by
  unfold dset
  rw [if_pos hhas]
  conv_rhs => rw [← List.map_id d]
  apply List.map_congr_left
  intro kv hkv
  by_cases hk : kv.fst = k
  · rw [if_pos hk]
    have hv := huni kv hkv hk
    rw [← hk, ← hv]
    simp
  · rw [if_neg hk]
    rfl

/-- The top-level keys of a default affordance. -/
def baseKeys : List String := ["unit", "weight", "immovable", "container", "manipulations"]

/-- The keys of the nested container dict. -/
def containerKeys : List String := ["is_container", "capacity_weight", "openable", "is_open"]

/-- Everything `ensure_affordance` guarantees about the stored mapping. -/
def ensuredInv (a : AffDict) : Prop :=
  (∀ k ∈ baseKeys, dhas a k = true) ∧
  ∃ c, dget a "container" = some (.adict c) ∧
    (∀ kv ∈ a, kv.fst = "container" → kv.snd = .adict c) ∧
    (∀ k ∈ containerKeys, dhas c k = true)

theorem ensure_affordance_body (stored : Option AffVal) (unit : String) :
    ensure_affordance stored unit =
      match dget ((default_affordance unit).foldl
          (fun acc kv => dsetAbsent acc kv.fst kv.snd) (affDictOf stored)) "container" with
      | some (.adict c) =>
        dset ((default_affordance unit).foldl
            (fun acc kv => dsetAbsent acc kv.fst kv.snd) (affDictOf stored)) "container"
          (.adict (default_container.foldl
            (fun acc kv => dsetAbsent acc kv.fst kv.snd) c))
      | _ =>
        dset ((default_affordance unit).foldl
            (fun acc kv => dsetAbsent acc kv.fst kv.snd) (affDictOf stored)) "container"
          (.adict default_container) := rfl

@[simp] theorem affDictOf_adict (d : AffDict) : affDictOf (some (.adict d)) = d := rfl

theorem dget_default_affordance_mem (unit : String) (k : String) (hk : k ∈ baseKeys) :
    (dget (default_affordance unit) k).isSome = true := by
  simp only [baseKeys, List.mem_cons, List.not_mem_nil, or_false] at hk
  rcases hk with rfl | rfl | rfl | rfl | rfl <;> rfl

theorem dget_default_container_mem (k : String) (hk : k ∈ containerKeys) :
    (dget default_container k).isSome = true := by
  simp only [containerKeys, List.mem_cons, List.not_mem_nil, or_false] at hk
  rcases hk with rfl | rfl | rfl | rfl <;> rfl

theorem ensuredInv_ensure (stored : Option AffVal) (unit : String) :
    ensuredInv (ensure_affordance stored unit) := by
  rw [ensure_affordance_body]
  generalize affDictOf stored = d
  have hAget : ∀ k, dget ((default_affordance unit).foldl
      (fun acc kv => dsetAbsent acc kv.fst kv.snd) d) k =
      dgetOr (dget d k) (dget (default_affordance unit) k) :=
    fun k => dget_foldl_dsetAbsent _ d k
  have hAhas : ∀ k ∈ baseKeys, dhas ((default_affordance unit).foldl
      (fun acc kv => dsetAbsent acc kv.fst kv.snd) d) k = true := by
    intro k hk
    rw [dhas_eq_isSome, hAget k]
    have hb := dget_default_affordance_mem unit k hk
    cases hg : dget d k
    · cases hgb : dget (default_affordance unit) k
      · rw [hgb] at hb; simp at hb
      · simp [dgetOr, hg, hgb]
    · simp [dgetOr, hg]
  split
  · rename_i c heq
    constructor
    · intro k hk
      rw [dhas_dset]
      simp [hAhas k hk]
    · refine ⟨default_container.foldl (fun acc kv => dsetAbsent acc kv.fst kv.snd) c,
        dget_dset_same _ _ _, dset_uniform _ _ _, ?_⟩
      intro k hk
      rw [dhas_eq_isSome, dget_foldl_dsetAbsent]
      have hb := dget_default_container_mem k hk
      cases hg : dget c k
      · cases hgb : dget default_container k
        · rw [hgb] at hb; simp at hb
        · simp [dgetOr, hg, hgb]
      · simp [dgetOr, hg]
  · rename_i heq
    constructor
    · intro k hk
      rw [dhas_dset]
      simp [hAhas k hk]
    · refine ⟨default_container, dget_dset_same _ _ _, dset_uniform _ _ _, ?_⟩
      intro k hk
      rw [dhas_eq_isSome]
      exact dget_default_container_mem k hk

theorem ensure_of_inv (a : AffDict) (unit : String) (hinv : ensuredInv a) :
    ensure_affordance (some (.adict a)) unit = a := by
  obtain ⟨hbase, c, hc, huni, hck⟩ := hinv
  rw [ensure_affordance_body, affDictOf_adict]
  have hmerge : (default_affordance unit).foldl
      (fun acc kv => dsetAbsent acc kv.fst kv.snd) a = a := by
    apply foldl_dsetAbsent_of_all_present
    intro kv hkv
    simp only [default_affordance, List.mem_cons, List.not_mem_nil, or_false] at hkv
    rcases hkv with rfl | rfl | rfl | rfl | rfl <;> exact hbase _ (by simp [baseKeys])
  rw [hmerge]
  split
  · rename_i c₂ heq
    rw [hc] at heq
    have hcc : c₂ = c := by
      cases heq
      rfl
    subst hcc
    have hcmerge : default_container.foldl
        (fun acc kv => dsetAbsent acc kv.fst kv.snd) c₂ = c₂ := by
      apply foldl_dsetAbsent_of_all_present
      intro kv hkv
      simp only [default_container, List.mem_cons, List.not_mem_nil, or_false] at hkv
      rcases hkv with rfl | rfl | rfl | rfl <;> exact hck _ (by simp [containerKeys])
    rw [hcmerge]
    exact dset_self a "container" (.adict c₂) huni
      (by rw [dhas_eq_isSome, hc]; rfl)
  · rename_i hnot
    exact absurd hc (hnot c)

/-- C8, counterexample: a stored mapping whose existing top-level
`"container"` key holds a non-mapping value.  The claim says an existing
top-level key is never overwritten; the code replaces the value with the
default container dict (its own test
`test_ensure_affordance_replaces_container_when_not_dict` asserts this). -/
theorem c8_counterexample :
    dget [("container", AffVal.astr "nope")] "container" = some (.astr "nope") ∧
    dget (ensure_affordance (some (.adict [("container", .astr "nope")])) "lb")
        "container" = some (.adict default_container) ∧
    AffVal.astr "nope" ≠ .adict default_container := by
  refine ⟨rfl, rfl, ?_⟩
  intro h
  exact AffVal.noConfusion h

/-- C8, amended: `ensure_affordance` is idempotent; a stored value that is not
a mapping is replaced wholesale by `default_affordance(unit)`; an existing
top-level key other than a `"container"` holding a non-mapping is never
overwritten (a non-mapping container value is replaced by the default
container); existing nested container keys are never overwritten; and after
every call the stored mapping contains all default top-level keys and all
nested container keys. -/
theorem c8_ensure_affordance_amended :
    (∀ (stored : Option AffVal) (unit : String),
      ensure_affordance (some (.adict (ensure_affordance stored unit))) unit =
        ensure_affordance stored unit) ∧
    (∀ (stored : Option AffVal) (unit : String),
      (∀ d, stored ≠ some (.adict d)) →
      ensure_affordance stored unit = default_affordance unit) ∧
    (∀ (d : AffDict) (unit k : String) (v : AffVal),
      dget d k = some v → k ≠ "container" →
      dget (ensure_affordance (some (.adict d)) unit) k = some v) ∧
    (∀ (d : AffDict) (unit : String) (c : AffDict) (ck : String) (cv : AffVal),
      dget d "container" = some (.adict c) → dget c ck = some cv →
      ∃ c', dget (ensure_affordance (some (.adict d)) unit) "container" =
          some (.adict c') ∧ dget c' ck = some cv) ∧
    (∀ (stored : Option AffVal) (unit : String),
      (∀ k ∈ baseKeys, dhas (ensure_affordance stored unit) k = true) ∧
      ∃ c, dget (ensure_affordance stored unit) "container" = some (.adict c) ∧
        ∀ k ∈ containerKeys, dhas c k = true) := by
  refine ⟨?_, ?_, ?_, ?_, ?_⟩
  · intro stored unit
    exact ensure_of_inv _ unit (ensuredInv_ensure stored unit)
  · intro stored unit hnd
    match stored with
    | none => rfl
    | some (.astr s) => rfl
    | some (.anum n) => rfl
    | some (.abool b) => rfl
    | some (.alist xs) => rfl
    | some (.adict d) => exact absurd rfl (hnd d)
  · intro d unit k v hget hne
    rw [ensure_affordance_body, affDictOf_adict]
    have hA : dget ((default_affordance unit).foldl
        (fun acc kv => dsetAbsent acc kv.fst kv.snd) d) k = some v := by
      rw [dget_foldl_dsetAbsent, hget]
      rfl
    split
    · rw [dget_dset_other _ _ _ _ hne]
      exact hA
    · rw [dget_dset_other _ _ _ _ hne]
      exact hA
  · intro d unit c ck cv hgc hgck
    rw [ensure_affordance_body, affDictOf_adict]
    have hA : dget ((default_affordance unit).foldl
        (fun acc kv => dsetAbsent acc kv.fst kv.snd) d) "container" =
        some (.adict c) := by
      rw [dget_foldl_dsetAbsent, hgc]
      rfl
    split
    · rename_i c₂ heq
      rw [hA] at heq
      have hcc : c₂ = c := by cases heq; rfl
      subst hcc
      refine ⟨_, dget_dset_same _ _ _, ?_⟩
      rw [dget_foldl_dsetAbsent, hgck]
      rfl
    · rename_i hnot
      exact absurd hA (hnot c)
  · intro stored unit
    obtain ⟨h1, c, h2, _, h3⟩ := ensuredInv_ensure stored unit
    exact ⟨h1, c, h2, h3⟩

/-- C8, witness: concrete applications of the amended theorem — a non-mapping
stored value is replaced wholesale, and an existing `"weight"` entry
survives. -/
theorem c8_ensure_affordance_amended_witness :
    ensure_affordance (some (.astr "junk")) "lb" = default_affordance "lb" ∧
    dget (ensure_affordance (some (.adict [("weight", .anum 5)])) "kg") "weight" =
      some (.anum 5) :=
  ⟨c8_ensure_affordance_amended.2.1 (some (.astr "junk")) "lb"
      (fun d h => by cases h),
    c8_ensure_affordance_amended.2.2.1 [("weight", .anum 5)] "kg" "weight"
      (.anum 5) rfl (by decide)⟩

/-! ## Claim C1 — `LLMClient.chat_json` -/

/-- The per-provider call did not produce a JSON object (it raised, or
returned `None`). -/
def callFails {α : Type} : CallOutcome α → Bool
  | .returns (some _) => false
  | .returns none => true
  | .raises _ => true

/-- The exception a failing call contributes as `last_exc` (for a successful
call this value is never consulted). -/
def failExc {α : Type} : CallOutcome α → String
  | .raises e => e
  | .returns _ => noJsonExcMsg

theorem chatJsonGo_success {α : Type} (call : LLMProvider → CallOutcome α)
    (p : LLMProvider) (j : α) (hp : call p = .returns (some j)) :
    ∀ (pre : List LLMProvider), (∀ q ∈ pre, callFails (call q) = true) →
    ∀ (post : List LLMProvider) (last0 : Option String) (logs : List String),
      chatJsonGo call (pre ++ p :: post) last0 logs =
        (.ok j, logs ++ pre.map (fun q => failLog q.label (failExc (call q)))) := by
  intro pre
  induction pre with
  | nil =>
    intro _ post last0 logs
    simp only [List.nil_append, chatJsonGo, hp, List.map_nil, List.append_nil]
  | cons q rest ih =>
    intro hfails post last0 logs
    have hq : callFails (call q) = true := hfails q (by simp)
    rw [List.cons_append]
    match hcq : call q with
    | .returns (some out) => rw [hcq] at hq; simp [callFails] at hq
    | .returns none =>
      simp only [chatJsonGo, hcq]
      rw [ih (fun r hr => hfails r (by simp [hr])) post _ _]
      simp [failExc, hcq]
    | .raises exc =>
      simp only [chatJsonGo, hcq]
      rw [ih (fun r hr => hfails r (by simp [hr])) post _ _]
      simp [failExc, hcq]

theorem chatJsonGo_all_fail {α : Type} (call : LLMProvider → CallOutcome α) :
    ∀ (providers : List LLMProvider) (hne : providers ≠ [])
      (_ : ∀ q ∈ providers, callFails (call q) = true)
      (last0 : Option String) (logs : List String),
      chatJsonGo call providers last0 logs =
        (.error ("All LLM providers failed. Last exception: " ++
          failExc (call (providers.getLast hne))),
          logs ++ providers.map (fun q => failLog q.label (failExc (call q)))) := by
  intro providers
  induction providers with
  | nil => intro hne; exact absurd rfl hne
  | cons q rest ih =>
    intro hne hfails last0 logs
    have hq : callFails (call q) = true := hfails q (by simp)
    match hrest : rest with
    | [] =>
      match hcq : call q with
      | .returns (some out) => rw [hcq] at hq; simp [callFails] at hq
      | .returns none => simp [chatJsonGo, hcq, optExcRepr, failExc, List.getLast]
      | .raises exc => simp [chatJsonGo, hcq, optExcRepr, failExc, List.getLast]
    | r :: rest' =>
      have hne' : r :: rest' ≠ [] := by simp
      have hlast : (q :: r :: rest').getLast hne = (r :: rest').getLast hne' := by
        simp [List.getLast]
      match hcq : call q with
      | .returns (some out) => rw [hcq] at hq; simp [callFails] at hq
      | .returns none =>
        have hstep : chatJsonGo call (q :: r :: rest') last0 logs =
            chatJsonGo call (r :: rest') (some noJsonExcMsg)
              (logs ++ [failLog q.label noJsonExcMsg]) := by
          simp only [chatJsonGo, hcq]
        rw [hstep, ih hne' (fun s hs => hfails s (by simp [hs])) _ _, hlast]
        simp [failExc, hcq]
      | .raises exc =>
        have hstep : chatJsonGo call (q :: r :: rest') last0 logs =
            chatJsonGo call (r :: rest') (some exc)
              (logs ++ [failLog q.label exc]) := by
          simp only [chatJsonGo, hcq]
        rw [hstep, ih hne' (fun s hs => hfails s (by simp [hs])) _ _, hlast]
        simp [failExc, hcq]

/-- C1: `chat_json` tries providers strictly in order.  (a) If every provider
of a prefix fails (raises or returns `None`) and the next provider's call
returns a JSON object `j`, the result is `ok j` for EVERY behaviour of the
providers after it (they are never attempted), each failing provider having
contributed one error-log entry, in order; (b) if every provider fails,
`chat_json` raises a `RuntimeError` whose message carries the exception
contributed by the last provider. -/
theorem c1_chat_json :
    (∀ (α : Type) (call call' : LLMProvider → CallOutcome α)
      (pre post : List LLMProvider) (p : LLMProvider) (j : α),
      (∀ q ∈ pre, callFails (call q) = true) →
      call p = .returns (some j) →
      (∀ q ∈ pre, call' q = call q) → call' p = call p →
      chat_json call' (pre ++ p :: post) =
        (.ok j, pre.map (fun q => failLog q.label (failExc (call q))))) ∧
    (∀ (α : Type) (call : LLMProvider → CallOutcome α)
      (providers : List LLMProvider) (hne : providers ≠ []),
      (∀ q ∈ providers, callFails (call q) = true) →
      chat_json call providers =
        (.error ("All LLM providers failed. Last exception: " ++
          failExc (call (providers.getLast hne))),
          providers.map (fun q => failLog q.label (failExc (call q))))) := by
  constructor
  · intro α call call' pre post p j hfails hp hagree hp'
    have h := chatJsonGo_success call' p j (hp'.trans hp) pre
      (fun q hq => by rw [hagree q hq]; exact hfails q hq) post none []
    rw [chat_json, h]
    simp only [List.nil_append]
    congr 1
    apply List.map_congr_left
    intro q hq
    rw [hagree q hq]
  · intro α call providers hne hfails
    have h := chatJsonGo_all_fail call providers hne hfails none []
    rw [chat_json, h]
    simp

/-- C1, witness: provider A always raises, provider B succeeds with value 7;
a third provider C would raise if it were ever called, and is not. -/
theorem c1_chat_json_witness :
    chat_json
      (fun p => if p.label = "B" then CallOutcome.returns (some (7 : Nat))
        else .raises "boom")
      [⟨"A", "http://local", "m1", none⟩, ⟨"B", "https://api", "m2", some "k"⟩,
        ⟨"C", "https://other", "m3", none⟩] =
      (.ok 7, [failLog "A" "boom"]) :=
  c1_chat_json.1 Nat
    (fun p => if p.label = "B" then CallOutcome.returns (some (7 : Nat))
      else .raises "boom")
    (fun p => if p.label = "B" then CallOutcome.returns (some (7 : Nat))
      else .raises "boom")
    [⟨"A", "http://local", "m1", none⟩] [⟨"C", "https://other", "m3", none⟩]
    ⟨"B", "https://api", "m2", some "k"⟩ 7
    (by decide) rfl (fun q _ => rfl) rfl

/-! ## Claim C5 — `LLMClient._extract_json_from_text` -/

/-- C5, counterexample: on `'[1, {"a": 1}]'` the strict parse succeeds with a
non-mapping (a list), and the claim then demands the first-`{`-to-last-`}`
fallback, whose span `'{"a": 1}'` parses to the mapping `{"a": 1}`.  The code
instead returns `None` immediately after a successful strict parse of a
non-mapping — the fallback runs only when the strict parse raises. -/
theorem c5_counterexample :
    extract_json_from_text "[1, \x7b\"a\": 1\x7d]" = none ∧
    json_loads (pyStrip "[1, \x7b\"a\": 1\x7d]") =
      some (.jarr [.jnum 1, .jobj [("a", .jnum 1)]]) ∧
    braceSpan (pyStrip "[1, \x7b\"a\": 1\x7d]").toList = some "\x7b\"a\": 1\x7d".toList ∧
    json_loads "\x7b\"a\": 1\x7d" = some (.jobj [("a", .jnum 1)]) :=
  ⟨rfl, rfl, rfl, rfl⟩

/-- C5, amended: `_extract_json_from_text` first attempts a strict parse of
the whole trimmed text; when the strict parse succeeds its verdict is final —
the object if it is a mapping, `None` otherwise, with no fallback attempt;
only when the strict parse raises does it search the span from the first `{`
to the last `}` and parse that, returning `None` exactly when that also fails
or yields a non-mapping.  In particular it returns `{"a": 1}` on
`'{"a": 1}'`, `None` on `'["a",1]'`, `{"x": 2}` on `'noise {"x":2} noise'`
and `None` on `'no braces'`. -/
theorem c5_extract_json_amended :
    (∀ (text : String) (kvs : List (String × JsonVal)),
      json_loads (pyStrip text) = some (.jobj kvs) →
      extract_json_from_text text = some kvs) ∧
    (∀ (text : String) (v : JsonVal),
      json_loads (pyStrip text) = some v → (∀ kvs, v ≠ .jobj kvs) →
      extract_json_from_text text = none) ∧
    (∀ (text : String),
      json_loads (pyStrip text) = none →
      extract_json_from_text text =
        match braceSpan (pyStrip text).toList with
        | none => none
        | some span =>
          match json_loads (String.mk span) with
          | some (.jobj kvs) => some kvs
          | _ => none) ∧
    (extract_json_from_text "\x7b\"a\": 1\x7d" = some [("a", .jnum 1)] ∧
      extract_json_from_text "[\"a\",1]" = none ∧
      extract_json_from_text "noise \x7b\"x\":2\x7d noise" = some [("x", .jnum 2)] ∧
      extract_json_from_text "no braces" = none) := by
  refine ⟨?_, ?_, ?_, rfl, rfl, rfl, rfl⟩
  · intro text kvs hp
    simp only [extract_json_from_text]
    rw [hp]
  · intro text v hp hnm
    simp only [extract_json_from_text]
    rw [hp]
    match v with
    | .jobj kvs => exact absurd rfl (hnm kvs)
    | .jnull => rfl
    | .jbool b => rfl
    | .jnum n => rfl
    | .jstr s => rfl
    | .jarr xs => rfl
  · intro text hp
    simp only [extract_json_from_text]
    rw [hp]

/-- C5, witness: the amended theorem applied to concrete inputs — a strict
parse that succeeds with a mapping, a strict success with a non-mapping, and
a strict failure that goes through the brace-span fallback. -/
theorem c5_extract_json_amended_witness :
    extract_json_from_text " \x7b\"k\": true\x7d " = some [("k", .jbool true)] ∧
    extract_json_from_text "[1, \x7b\"a\": 1\x7d]" = none ∧
    extract_json_from_text "noise \x7b\"x\":2\x7d noise" = some [("x", .jnum 2)] :=
  ⟨c5_extract_json_amended.1 " \x7b\"k\": true\x7d " [("k", .jbool true)] rfl,
    c5_extract_json_amended.2.1 "[1, \x7b\"a\": 1\x7d]"
      (.jarr [.jnum 1, .jobj [("a", .jnum 1)]]) rfl
      (fun kvs h => by cases h),
    c5_extract_json_amended.2.2.1 "noise \x7b\"x\":2\x7d noise" rfl⟩

/-! ## Claim C6 — rewrite completion handling -/

/-- C6, counterexample: a successful completion whose returned desc equals the
current desc.  The claim says `last_generated_desc` is always recorded and
that `director_facts` is replaced whenever the facts field is a list; the
code leaves the whole state untouched because the desc did not change. -/
theorem c6_counterexample :
    director_on_ok
        { auto_desc := true
          desc := "X"
          last_generated_desc := "old"
          director_facts := [] }
        (.jobj [("desc", .jstr "X"), ("facts", .jarr [.jstr "f"])]) =
      some { auto_desc := true
             desc := "X"
             last_generated_desc := "old"
             director_facts := [] } ∧
    ("old" : String) ≠ "X" ∧
    ([] : List JsonVal) ≠ [.jstr "f"] :=
  ⟨rfl, by decide, by simp⟩

/-- C6, amended: on a background rewrite that completes successfully with a
result dict (its `desc` field a string or falsy), desc and
`last_generated_desc` are both overwritten — and `director_facts` replaced
when the `facts`-or-`[]` value is list-shaped — exactly when `auto_desc` is
still enabled and the trimmed returned desc is non-empty and differs from the
current desc; in every other case (including a disabled `auto_desc`, with any
result) the room state is left entirely untouched. -/
theorem c6_director_on_ok_amended :
    (∀ (st : DirectorRoom) (kvs : List (String × JsonVal)) (nd : String),
      descFieldStripped kvs = some nd →
      director_on_ok st (.jobj kvs) = some
        (if st.auto_desc = true ∧ nd ≠ "" ∧ nd ≠ st.desc then
          { st with
            desc := nd
            last_generated_desc := nd
            director_facts :=
              match factsFieldOrEmpty kvs with
              | .jarr xs => xs
              | _ => st.director_facts }
        else st)) ∧
    (∀ (st : DirectorRoom) (data : JsonVal),
      st.auto_desc = false → director_on_ok st data = some st) := by
  constructor
  · intro st kvs nd hdesc
    by_cases hauto : st.auto_desc = true
    · simp only [director_on_ok, hauto]
      rw [hdesc]
      by_cases hcond : nd ≠ "" ∧ nd ≠ st.desc
      · simp [hcond, hauto]
      · simp [hcond, hauto]
    · have hf : st.auto_desc = false := by
        revert hauto
        cases st.auto_desc <;> simp
      simp [director_on_ok, hf]
  · intro st data hf
    simp [director_on_ok, hf]

/-- C6, witness: a successful completion with a fresh desc and list-shaped
facts updates all three fields; with auto-desc disabled nothing changes. -/
theorem c6_director_on_ok_amended_witness :
    director_on_ok ⟨true, "X", "old", []⟩
        (.jobj [("desc", .jstr " New room. "), ("facts", .jarr [.jstr "f"])]) =
      some ⟨true, "New room.", "New room.", [.jstr "f"]⟩ ∧
    director_on_ok ⟨false, "X", "old", []⟩ (.jstr "not a dict") =
      some ⟨false, "X", "old", []⟩ :=
  ⟨c6_director_on_ok_amended.1 ⟨true, "X", "old", []⟩
      [("desc", .jstr " New room. "), ("facts", .jarr [.jstr "f"])]
      "New room." rfl,
    c6_director_on_ok_amended.2 ⟨false, "X", "old", []⟩ (.jstr "not a dict") rfl⟩

/-! ## Claim C2 — `find_object_in_room` -/

/-- The objects the name tiers consider, as C2 words it: props, restricted to
notable ones when `notable_only` is set. -/
def c2_props (room : Room) (notable_only : Bool) : List Obj :=
  room.contents.filter (fun o => is_prop o ∧ (notable_only = true → o.notable = true))

/-- C2's exact tier predicate: lowercased key or shortdesc equals the
lowercased text. -/
def c2_exact (needle : String) (o : Obj) : Bool :=
  needle = pyLower o.key ∨ needle = pyLower o.shortdesc

/-- C2's substring tier predicate: key or shortdesc contains the lowercased
text as a substring. -/
def c2_substr (needle : String) (o : Obj) : Bool :=
  pyContains (pyLower o.key) needle ∨ pyContains (pyLower o.shortdesc) needle

theorem pyContains_empty_hay (needle : String) (hne : needle ≠ "") :
    pyContains "" needle = false := by
  simp only [pyContains, decide_eq_false_iff_not]
  intro hinf
  have : needle.toList = [] := List.eq_nil_of_infix_nil hinf
  exact hne (by
    cases needle with
    | mk l => cases l with
      | nil => rfl
      | cons c cs => simp at this)

theorem pyLower_ne_empty (s : String) (h : s ≠ "") : pyLower s ≠ "" := by
  intro hc
  cases s with
  | mk l =>
    cases l with
    | nil => exact h rfl
    | cons c cs =>
      have hd : (pyLower (String.mk (c :: cs))).data = ("" : String).data :=
        congrArg String.data hc
      simp [pyLower] at hd

/-- The single scan of `find_object_in_room` realises C2's tier description:
the first exact hit wins outright; otherwise the candidates collected so far
plus the substring matches of the remainder decide by uniqueness. -/
theorem findNameLoop_spec (needle : String) (notable_only : Bool)
    (hne : needle ≠ "") :
    ∀ (l cands : List Obj),
      findNameLoop needle notable_only l cands =
        match (l.filter (fun o => is_prop o ∧ (notable_only = true → o.notable = true))).find?
            (c2_exact needle) with
        | some o => some o
        | none =>
          let cs := cands ++
            (l.filter (fun o => is_prop o ∧ (notable_only = true → o.notable = true))).filter
              (c2_substr needle)
          if cs.length = 1 then cs.head? else none := by
  intro l
  induction l with
  | nil => intro cands; simp [findNameLoop]
  | cons obj rest ih =>
    intro cands
    by_cases hprop : is_prop obj = true
    · by_cases hnot : notable_only = true ∧ ¬ obj.notable = true
      · -- filtered out by the notable_only restriction
        have hskip : decide (is_prop obj = true ∧
            (notable_only = true → obj.notable = true)) = false := by
          simp only [decide_eq_false_iff_not]
          intro hc
          exact hnot.2 (hc.2 hnot.1)
        simp only [findNameLoop]
        rw [if_neg (by simp [hprop]), if_pos hnot, ih cands, List.filter_cons, hskip]
        simp
      · -- obj participates
        have hkeep : decide (is_prop obj = true ∧
            (notable_only = true → obj.notable = true)) = true := by
          simp only [decide_eq_true_eq]
          refine ⟨hprop, fun hno => ?_⟩
          rcases Decidable.em (obj.notable = true) with h | h
          · exact h
          · exact absurd ⟨hno, h⟩ hnot
        by_cases hex : (needle = pyLower obj.key ∨ needle = pyLower obj.shortdesc)
        · -- exact hit
          have hexb : c2_exact needle obj = true := by
            simp [c2_exact, hex]
          simp only [findNameLoop]
          rw [if_neg (by simp [hprop]), if_neg hnot, if_pos hex,
            List.filter_cons, if_pos hkeep, List.find?_cons, hexb]
        · -- not exact: candidate or plain skip
          have hexb : c2_exact needle obj = false := by
            simp [c2_exact, hex]
          by_cases hcand : (pyContains (pyLower obj.key) needle = true ∨
              (pyLower obj.shortdesc ≠ "" ∧ pyContains (pyLower obj.shortdesc) needle = true))
          · -- collected as a substring candidate
            have hsub : c2_substr needle obj = true := by
              simp only [c2_substr, decide_eq_true_eq]
              rcases hcand with h | h
              · exact Or.inl h
              · exact Or.inr h.2
            simp only [findNameLoop]
            rw [if_neg (by simp [hprop]), if_neg hnot, if_neg hex, if_pos hcand,
              ih (cands ++ [obj]), List.filter_cons, if_pos hkeep,
              List.find?_cons, hexb]
            cases hfind : (rest.filter (fun o => is_prop o ∧
                (notable_only = true → o.notable = true))).find? (c2_exact needle) with
            | some o => simp
            | none =>
              simp only []
              rw [List.filter_cons, if_pos hsub]
              simp [List.append_assoc]
          · -- no match at all for obj
            have hsub : c2_substr needle obj = false := by
              simp only [c2_substr, decide_eq_false_iff_not]
              intro hc
              apply hcand
              rcases hc with h | h
              · exact Or.inl h
              · refine Or.inr ⟨?_, h⟩
                intro hsd
                rw [hsd] at h
                rw [pyContains_empty_hay needle hne] at h
                exact Bool.false_ne_true h
            simp only [findNameLoop]
            rw [if_neg (by simp [hprop]), if_neg hnot, if_neg hex, if_neg hcand,
              ih cands, List.filter_cons, if_pos hkeep, List.find?_cons, hexb]
            cases hfind : (rest.filter (fun o => is_prop o ∧
                (notable_only = true → o.notable = true))).find? (c2_exact needle) with
            | some o => simp
            | none =>
              simp only []
              rw [List.filter_cons, hsub]
              simp
    · -- not a prop: skipped entirely
      have hskip : decide (is_prop obj = true ∧
          (notable_only = true → obj.notable = true)) = false := by
        simp [hprop]
      simp only [findNameLoop]
      rw [if_pos (by simp [hprop]), ih cands, List.filter_cons, hskip]
      simp

/-- C2, counterexample: a room with one prop whose shortdesc is unset and a
target text whose trim is empty.  The claim's exact tier matches (the
lowercased empty text equals the lowercased empty shortdesc, and the text is
not of dbref form), so the claim demands the prop; the code returns `None` at
its empty-text guard, which the claim does not mention. -/
theorem c2_counterexample :
    find_object_in_room ⟨[⟨"#1", "lamp", "", true, .prop, .pynone⟩]⟩ "" false = none ∧
    isDbrefForm (pyStrip "") = false ∧
    (c2_props ⟨[⟨"#1", "lamp", "", true, .prop, .pynone⟩]⟩ false).find?
        (c2_exact (pyLower (pyStrip ""))) =
      some ⟨"#1", "lamp", "", true, .prop, .pynone⟩ := by
  decide

/-- C2, amended: C2 as stated, restricted to target texts whose trim is
non-empty; an empty (or whitespace-only) target text yields `None` before any
tier runs.  For non-empty trimmed text: the `#<digits>` form resolves by exact
dbref over ALL contents; otherwise the first prop (restricted to notable ones
when requested) whose lowercased key or shortdesc equals the lowercased text
wins; otherwise a unique substring candidate wins and anything else is
`None`. -/
theorem c2_find_object_in_room_amended :
    ∀ (room : Room) (text : String) (notable_only : Bool),
      (pyStrip text = "" → find_object_in_room room text notable_only = none) ∧
      (isDbrefForm (pyStrip text) = true →
        find_object_in_room room text notable_only =
          room.contents.find? (fun obj => obj.dbref = pyStrip text)) ∧
      (pyStrip text ≠ "" → isDbrefForm (pyStrip text) = false →
        find_object_in_room room text notable_only =
          match (c2_props room notable_only).find?
              (c2_exact (pyLower (pyStrip text))) with
          | some o => some o
          | none =>
            let cs := (c2_props room notable_only).filter
              (c2_substr (pyLower (pyStrip text)))
            if cs.length = 1 then cs.head? else none) := by
  intro room text notable_only
  refine ⟨?_, ?_, ?_⟩
  · intro h
    simp [find_object_in_room, h]
  · intro hdb
    have hne : pyStrip text ≠ "" := by
      intro h
      rw [h] at hdb
      simp [isDbrefForm, pyIsDigit] at hdb
    simp only [find_object_in_room]
    rw [if_neg hne, if_pos hdb]
  · intro hne hdb
    simp only [find_object_in_room]
    rw [if_neg hne, if_neg (by simp [hdb]), findNameLoop_spec _ _
      (pyLower_ne_empty _ hne) room.contents []]
    simp only [c2_props, List.nil_append]

/-- C2, witness: applications of the amended theorem — a unique
case-insensitive exact match, a whitespace-only query, and a dbref query. -/
theorem c2_find_object_in_room_amended_witness :
    find_object_in_room ⟨[⟨"#1", "Lamp", "a brass lamp", true, .prop, .pynone⟩]⟩
        "LAMP" false = some ⟨"#1", "Lamp", "a brass lamp", true, .prop, .pynone⟩ ∧
    find_object_in_room ⟨[⟨"#1", "Lamp", "a brass lamp", true, .prop, .pynone⟩]⟩
        "  " false = none ∧
    find_object_in_room ⟨[⟨"#1", "Lamp", "a brass lamp", true, .prop, .pynone⟩]⟩
        " #1 " false = some ⟨"#1", "Lamp", "a brass lamp", true, .prop, .pynone⟩ :=
  ⟨((c2_find_object_in_room_amended
        ⟨[⟨"#1", "Lamp", "a brass lamp", true, .prop, .pynone⟩]⟩ "LAMP" false).2.2
      (by decide) (by decide)).trans (by decide),
    (c2_find_object_in_room_amended
        ⟨[⟨"#1", "Lamp", "a brass lamp", true, .prop, .pynone⟩]⟩ "  " false).1
      (by decide),
    ((c2_find_object_in_room_amended
        ⟨[⟨"#1", "Lamp", "a brass lamp", true, .prop, .pynone⟩]⟩ " #1 " false).2.1
      (by decide)).trans (by decide)⟩

/-! ## Claim C3 — `resolve_edit_target` -/

/-- The scoring candidates as C3 words them: notable, non-exit, non-character
objects with a positive token-overlap score. -/
def c3_cands (room : Room) (low : String) : List Obj :=
  room.contents.filter (fun o =>
    ¬ is_exit o ∧ ¬ is_character o ∧ o.notable ∧ targetScore low o > 0)

/-- The highest score among the candidates. -/
def c3_maxScore (low : String) (cands : List Obj) : Nat :=
  (cands.map (targetScore low)).foldr max 0

/-- The candidates tied at the highest score. -/
def c3_best (room : Room) (low : String) : List Obj :=
  (c3_cands room low).filter
    (fun o => targetScore low o = c3_maxScore low (c3_cands room low))

theorem le_foldr_max (l : List Nat) : ∀ x ∈ l, x ≤ l.foldr max 0 := by
  induction l with
  | nil => simp
  | cons y ys ih =>
    intro x hx
    rcases List.mem_cons.mp hx with h | h
    · subst h
      exact Nat.le_max_left _ _
    · exact le_trans (ih x h) (Nat.le_max_right _ _)

theorem foldr_max_mem (l : List Nat) (h : l ≠ []) : l.foldr max 0 ∈ l := by
  induction l with
  | nil => exact absurd rfl h
  | cons y ys ih =>
    match ys with
    | [] => simp
    | z :: zs =>
      rcases Nat.le_total (List.foldr max 0 (z :: zs)) y with hle | hle
      · simp only [List.foldr_cons] at *
        rw [Nat.max_eq_left hle]
        simp
      · simp only [List.foldr_cons] at *
        rw [Nat.max_eq_right hle]
        exact List.mem_cons_of_mem y (ih (by simp))

/-- The `filterMap` scoring pass equals scoring the filtered candidates. -/
theorem scored_eq_map (low : String) (l : List Obj) :
    l.filterMap (scoreEntry low) =
    (l.filter (fun o =>
      ¬ is_exit o ∧ ¬ is_character o ∧ o.notable ∧ targetScore low o > 0)).map
      (fun o => (targetScore low o, o)) := by
  induction l with
  | nil => rfl
  | cons obj rest ih =>
    by_cases hkeep : (¬ is_exit obj = true ∧ ¬ is_character obj = true ∧
        obj.notable = true ∧ targetScore low obj > 0)
    · obtain ⟨hex, hch, hno, hh⟩ := hkeep
      have hfn : scoreEntry low obj = some (targetScore low obj, obj) := by
        unfold scoreEntry
        rw [if_neg hex, if_neg hch, if_neg (by simp [hno]), if_pos hh]
      rw [List.filterMap_cons_some hfn, List.filter_cons,
        if_pos (by simp only [decide_eq_true_eq]; exact ⟨hex, hch, hno, hh⟩), ih]
      simp
    · have hfn : scoreEntry low obj = none := by
        unfold scoreEntry
        by_cases hex : is_exit obj = true
        · rw [if_pos hex]
        · rw [if_neg hex]
          by_cases hch : is_character obj = true
          · rw [if_pos hch]
          · rw [if_neg hch]
            by_cases hno : obj.notable = true
            · rw [if_neg (by simp [hno])]
              by_cases hh : targetScore low obj > 0
              · exact absurd ⟨hex, hch, hno, hh⟩ hkeep
              · rw [if_neg hh]
            · rw [if_pos (by simp [hno])]
      rw [List.filterMap_cons_none hfn, List.filter_cons,
        if_neg (by simp only [decide_eq_true_eq]; exact hkeep), ih]

theorem wholeWordIn_empty_text (tok : String) (h : tok.toList ≠ []) :
    wholeWordIn "" tok = false := by
  simp [wholeWordIn, wwAux, List.isPrefixOf]
  exact fun _ hc => absurd hc h

theorem mem_targetingWords_length (t : String) (s : String)
    (hm : t ∈ targetingWords s) : 3 ≤ t.length := by
  simp only [targetingWords, List.mem_filter, decide_eq_true_eq] at hm
  exact hm.2

theorem targetScore_empty_low (o : Obj) : targetScore "" o = 0 := by
  unfold targetScore
  rw [List.length_eq_zero]
  rw [List.filter_eq_nil_iff]
  intro t ht
  rw [List.mem_dedup, List.mem_append] at ht
  have hlen : 3 ≤ t.length := by
    rcases ht with h | h
    · exact mem_targetingWords_length t _ h
    · exact mem_targetingWords_length t _ h
  have hne : t.toList ≠ [] := by
    intro hc
    have : t.length = 0 := by
      cases t with
      | mk l =>
        simp only [String.length]
        simp at hc
        simp [hc]
    omega
  simp [wholeWordIn_empty_text t hne]

/-- What `pickBest` computes on a non-empty scored list: the head of the
descending stable sort carries the maximum score, and the tied objects decide
the outcome. -/
theorem pickBest_spec (sc : List (Nat × Obj)) (hne : sc ≠ []) :
    ∃ bs, (∀ x ∈ sc, x.fst ≤ bs) ∧ bs ∈ sc.map (·.fst) ∧
      ((((sc.filter (fun so => so.fst = bs)).map (·.snd)).length = 1 →
        pickBest sc = (((sc.filter (fun so => so.fst = bs)).map (·.snd)).head?, [])) ∧
      (((sc.filter (fun so => so.fst = bs)).map (·.snd)).length ≠ 1 →
        (pickBest sc).fst = none ∧
        (pickBest sc).snd.Perm ((sc.filter (fun so => so.fst = bs)).map (·.snd)))) := by
  have hperm : (sc.mergeSort (fun a b => decide (b.fst ≤ a.fst))).Perm sc :=
    List.mergeSort_perm sc _
  have hsortnil : sc.mergeSort (fun a b => decide (b.fst ≤ a.fst)) ≠ [] := by
    intro hc
    apply hne
    have hl := hperm.length_eq
    rw [hc] at hl
    exact List.length_eq_zero.mp hl.symm
  have hpair : (sc.mergeSort (fun a b => decide (b.fst ≤ a.fst))).Pairwise
      (fun a b => decide (b.fst ≤ a.fst) = true) := by
    apply List.sorted_mergeSort
    · intro a b c hab hbc
      simp only [decide_eq_true_eq] at *
      omega
    · intro a b
      rcases Nat.le_total a.fst b.fst with h | h
      · simp [h]
      · simp [h]
  obtain ⟨hd, tl, hsorted_eq⟩ := List.exists_cons_of_ne_nil hsortnil
  refine ⟨hd.fst, ?_, ?_, ?_, ?_⟩
  · -- upper bound
    intro x hx
    have hx' : x ∈ sc.mergeSort (fun a b => decide (b.fst ≤ a.fst)) :=
      hperm.mem_iff.mpr hx
    rw [hsorted_eq] at hx'
    rcases List.mem_cons.mp hx' with h | h
    · rw [h]
    · rw [hsorted_eq] at hpair
      have := (List.pairwise_cons.mp hpair).1 x h
      simpa using this
  · -- attained
    apply List.mem_map_of_mem
    apply hperm.mem_iff.mp
    rw [hsorted_eq]
    simp
  all_goals
    have hfperm : ((sc.mergeSort (fun a b => decide (b.fst ≤ a.fst))).filter
        (fun so => so.fst = hd.fst)).Perm (sc.filter (fun so => so.fst = hd.fst)) :=
      hperm.filter _
    have hbperm : (((sc.mergeSort (fun a b => decide (b.fst ≤ a.fst))).filter
        (fun so => so.fst = hd.fst)).map (·.snd)).Perm
        ((sc.filter (fun so => so.fst = hd.fst)).map (·.snd)) :=
      hfperm.map _
    have hbs0 : (((sc.mergeSort (fun a b => decide (b.fst ≤ a.fst))).head?.map
        (·.fst)).getD 0) = hd.fst := by
      rw [hsorted_eq]
      rfl
    have hpb : pickBest sc =
        (if (((sc.mergeSort (fun a b => decide (b.fst ≤ a.fst))).filter
            (fun so => so.fst = hd.fst)).map (·.snd)).length = 1
         then ((((sc.mergeSort (fun a b => decide (b.fst ≤ a.fst))).filter
            (fun so => so.fst = hd.fst)).map (·.snd)).head?, [])
         else (none, ((sc.mergeSort (fun a b => decide (b.fst ≤ a.fst))).filter
            (fun so => so.fst = hd.fst)).map (·.snd))) := by
      simp only [pickBest]
      rw [if_neg hne, hbs0]
  · -- unique winner
    intro hlen
    have hlen' : (((sc.mergeSort (fun a b => decide (b.fst ≤ a.fst))).filter
        (fun so => so.fst = hd.fst)).map (·.snd)).length = 1 := by
      rw [hbperm.length_eq]
      exact hlen
    rw [hpb, if_pos hlen']
    obtain ⟨o, ho⟩ := List.length_eq_one.mp hlen
    have heq : ((sc.mergeSort (fun a b => decide (b.fst ≤ a.fst))).filter
        (fun so => so.fst = hd.fst)).map (·.snd) = [o] := by
      apply List.Perm.eq_singleton
      rw [← ho]
      exact hbperm
    rw [heq, ho]
  · -- tie
    intro hlen
    have hlen' : (((sc.mergeSort (fun a b => decide (b.fst ≤ a.fst))).filter
        (fun so => so.fst = hd.fst)).map (·.snd)).length ≠ 1 := by
      rw [hbperm.length_eq]
      exact hlen
    rw [hpb, if_neg hlen']
    exact ⟨rfl, hbperm⟩

/-- C3: `resolve_edit_target`.  (a) An explicit `#<digits>` token anywhere in
the instruction resolves by exact dbref over ALL room contents, ambiguity
empty, no scoring.  (b) Without one: an empty candidate set (every notable
non-exit non-character object scores zero) gives `(none, [])`; a unique
highest scorer is returned with no ambiguity; several objects tied at the
maximum score give `none` plus the tied objects as the ambiguity list (up to
order). -/
theorem c3_resolve_edit_target :
    ∀ (room : Room) (instruction : String),
      (∀ dbref, findDbrefAnywhere (pyStrip instruction).toList = some dbref →
        resolve_edit_target room instruction =
          (room.contents.find? (fun o => o.dbref = dbref), [])) ∧
      (findDbrefAnywhere (pyStrip instruction).toList = none →
        (c3_cands room (pyLower (pyStrip instruction)) = [] →
          resolve_edit_target room instruction = (none, [])) ∧
        ((c3_best room (pyLower (pyStrip instruction))).length = 1 →
          resolve_edit_target room instruction =
            ((c3_best room (pyLower (pyStrip instruction))).head?, [])) ∧
        (c3_cands room (pyLower (pyStrip instruction)) ≠ [] →
          (c3_best room (pyLower (pyStrip instruction))).length ≠ 1 →
          (resolve_edit_target room instruction).fst = none ∧
          (resolve_edit_target room instruction).snd.Perm
            (c3_best room (pyLower (pyStrip instruction))))) := by
  intro room instruction
  constructor
  · -- dbref branch
    intro dbref hdbref
    have htext : pyStrip instruction ≠ "" := by
      intro h
      rw [h] at hdbref
      simp [findDbrefAnywhere] at hdbref
    simp only [resolve_edit_target]
    rw [if_neg htext, hdbref]
    show (match room.contents.find? (fun obj => obj.dbref = dbref) with
      | some obj => (some obj, ([] : List Obj))
      | none => (none, [])) = _
    cases room.contents.find? (fun obj => obj.dbref = dbref) with
    | none => rfl
    | some v => rfl
  · -- scoring branch
    intro hdbnone
    by_cases htext : pyStrip instruction = ""
    · -- empty instruction: no candidates, early return
      have hlow : pyLower (pyStrip instruction) = "" := by
        rw [htext]
        rfl
      have hcands : c3_cands room (pyLower (pyStrip instruction)) = [] := by
        rw [hlow]
        unfold c3_cands
        rw [List.filter_eq_nil_iff]
        intro o _
        simp [targetScore_empty_low o]
      have hres : resolve_edit_target room instruction = (none, []) := by
        simp only [resolve_edit_target]
        rw [if_pos htext]
      have hbest : c3_best room (pyLower (pyStrip instruction)) = [] := by
        unfold c3_best
        rw [hcands]
        rfl
      refine ⟨fun _ => hres, ?_, ?_⟩
      · intro hlen
        rw [hbest] at hlen
        simp at hlen
      · intro hc _
        exact absurd hcands hc
    · -- non-empty instruction, genuine scoring
      have hresolve : resolve_edit_target room instruction =
          pickBest ((c3_cands room (pyLower (pyStrip instruction))).map
            (fun o => (targetScore (pyLower (pyStrip instruction)) o, o))) := by
        simp only [resolve_edit_target]
        rw [if_neg htext, hdbnone, scored_eq_map]
        rfl
      by_cases hcnil : c3_cands room (pyLower (pyStrip instruction)) = []
      · have hres : resolve_edit_target room instruction = (none, []) := by
          rw [hresolve, hcnil]
          rfl
        have hbest : c3_best room (pyLower (pyStrip instruction)) = [] := by
          unfold c3_best
          rw [hcnil]
          rfl
        refine ⟨fun _ => hres, ?_, fun hc _ => absurd hcnil hc⟩
        intro hlen
        rw [hbest] at hlen
        simp at hlen
      · -- non-empty candidates
        have hmapne : (c3_cands room (pyLower (pyStrip instruction))).map
            (fun o => (targetScore (pyLower (pyStrip instruction)) o, o)) ≠ [] := by
          simp [hcnil]
        obtain ⟨bs, hub, hmem, huniq, htie⟩ := pickBest_spec _ hmapne
        -- identify bs with the claim-side maximum score
        have hbs : bs = c3_maxScore (pyLower (pyStrip instruction))
            (c3_cands room (pyLower (pyStrip instruction))) := by
          have hmaps : ((c3_cands room (pyLower (pyStrip instruction))).map
              (fun o => (targetScore (pyLower (pyStrip instruction)) o, o))).map (·.fst) =
              (c3_cands room (pyLower (pyStrip instruction))).map
                (targetScore (pyLower (pyStrip instruction))) := by
            rw [List.map_map]
            rfl
          have h1 : bs ≤ c3_maxScore (pyLower (pyStrip instruction))
              (c3_cands room (pyLower (pyStrip instruction))) := by
            rw [hmaps] at hmem
            exact le_foldr_max _ _ hmem
          have h2 : c3_maxScore (pyLower (pyStrip instruction))
              (c3_cands room (pyLower (pyStrip instruction))) ≤ bs := by
            have hmm : c3_maxScore (pyLower (pyStrip instruction))
                (c3_cands room (pyLower (pyStrip instruction))) ∈
                (c3_cands room (pyLower (pyStrip instruction))).map
                  (targetScore (pyLower (pyStrip instruction))) := by
              apply foldr_max_mem
              simp [hcnil]
            rw [← hmaps] at hmm
            obtain ⟨x, hx, hxf⟩ := List.mem_map.mp hmm
            exact hxf ▸ hub x hx
          omega
        -- the filtered best list is the claim-side best list
        have hfb : (((c3_cands room (pyLower (pyStrip instruction))).map
            (fun o => (targetScore (pyLower (pyStrip instruction)) o, o))).filter
              (fun so => so.fst = bs)).map (·.snd) =
            c3_best room (pyLower (pyStrip instruction)) := by
          rw [List.filter_map, List.map_map]
          unfold c3_best
          rw [hbs]
          have hid : ((fun so : Nat × Obj => so.snd) ∘
              (fun o => (targetScore (pyLower (pyStrip instruction)) o, o))) = id := by
            funext o
            rfl
          rw [hid, List.map_id]
          rfl
        rw [hfb] at huniq htie
        exact ⟨fun hc => absurd hc hcnil,
          fun hlen => (hresolve.trans (huniq hlen)),
          fun _ hlen => ⟨by rw [hresolve]; exact (htie hlen).1,
            by rw [hresolve]; exact (htie hlen).2⟩⟩

/-- C3, witness: an explicit dbref resolves directly; word-overlap scoring
picks the sofa over the lamp on the sofa-worded instruction of the repo's own
test. -/
theorem c3_resolve_edit_target_witness :
    resolve_edit_target
        ⟨[⟨"#10", "Seafoam Brass Lamp", "a brass lamp", true, .prop, .pynone⟩,
          ⟨"#11", "Coastal Velvet Sofa", "a sea-blue velvet sofa", true, .prop, .pynone⟩]⟩
        "change #10 to blue" =
      (some ⟨"#10", "Seafoam Brass Lamp", "a brass lamp", true, .prop, .pynone⟩, []) ∧
    resolve_edit_target
        ⟨[⟨"#10", "Seafoam Brass Lamp", "a brass lamp", true, .prop, .pynone⟩,
          ⟨"#11", "Coastal Velvet Sofa", "a sea-blue velvet sofa", true, .prop, .pynone⟩]⟩
        "please change the velvet sofa legs" =
      (some ⟨"#11", "Coastal Velvet Sofa", "a sea-blue velvet sofa", true, .prop, .pynone⟩, []) :=
  ⟨((c3_resolve_edit_target
      ⟨[⟨"#10", "Seafoam Brass Lamp", "a brass lamp", true, .prop, .pynone⟩,
        ⟨"#11", "Coastal Velvet Sofa", "a sea-blue velvet sofa", true, .prop, .pynone⟩]⟩
      "change #10 to blue").1 "#10" (by decide)).trans (by decide),
    (((c3_resolve_edit_target
      ⟨[⟨"#10", "Seafoam Brass Lamp", "a brass lamp", true, .prop, .pynone⟩,
        ⟨"#11", "Coastal Velvet Sofa", "a sea-blue velvet sofa", true, .prop, .pynone⟩]⟩
      "please change the velvet sofa legs").2 (by decide)).2.1 (by decide)).trans
      (by decide)⟩

/-! ## Claim C4 — `instruction_mentions_target "change it to blue"` -/

/-- Strings with the same character list are equal. -/
theorem str_eq_of_toList (s t : String) (h : s.toList = t.toList) : s = t := by
  cases s; cases t; exact congrArg String.mk h

/-- `[a-z0-9]` characters are regex word characters. -/
theorem isWordChar_of_isLowerAlnum (c : Char) (h : isLowerAlnum c = true) :
    isWordChar c = true := by
  simp only [isLowerAlnum, decide_eq_true_eq] at h
  simp only [isWordChar, Char.isAlpha, Char.isLower, Char.isUpper, Char.isDigit,
    Bool.or_eq_true, Bool.and_eq_true, decide_eq_true_eq, ge_iff_le, Char.le_def] at *
  rcases h with ⟨h1, h2⟩ | ⟨h1, h2⟩
  · left; right
    constructor <;> [exact h1; exact h2]
  · right; left
    constructor <;> [exact h1; exact h2]

/-- Every character of every token produced by `alnumRunsAux` is `[a-z0-9]`. -/
theorem mem_alnumRunsAux_lowerAlnum :
    ∀ (fuel : Nat) (l : List Char) (t : String), t ∈ alnumRunsAux fuel l →
      ∀ c ∈ t.toList, isLowerAlnum c = true := by
  intro fuel
  induction fuel with
  | zero =>
    intro l t ht
    cases l <;> simp [alnumRunsAux] at ht
  | succ n ih =>
    intro l t ht c hc
    cases l with
    | nil => simp [alnumRunsAux] at ht
    | cons a as =>
      simp only [alnumRunsAux] at ht
      by_cases ha : isLowerAlnum a = true
      · rw [if_pos ha] at ht
        rcases List.mem_cons.mp ht with rfl | ht'
        · replace hc : c ∈ a :: as.takeWhile isLowerAlnum := hc
          rcases List.mem_cons.mp hc with rfl | hc'
          · exact ha
          · exact List.mem_takeWhile_imp hc'
        · exact ih _ _ ht' c hc
      · rw [if_neg ha] at ht
        exact ih _ _ ht c hc

/-- Every character of a `mentionTokens` token is a word character. -/
theorem mentionTokens_wordChar (target : Obj) (t : String)
    (hmem : t ∈ mentionTokens target) : ∀ c ∈ t.toList, isWordChar c = true := by
  intro c hc
  simp only [mentionTokens] at hmem
  have h1 := (List.mem_filter.mp hmem).1
  rcases List.mem_append.mp (List.mem_dedup.mp h1) with h3 | h3
  · exact isWordChar_of_isLowerAlnum c (mem_alnumRunsAux_lowerAlnum _ _ _ h3 c hc)
  · exact isWordChar_of_isLowerAlnum c (mem_alnumRunsAux_lowerAlnum _ _ _ h3 c hc)

/-- An all-word-character prefix followed by a word boundary is exactly the
leading word-character run. -/
theorem prefix_boundary_takeWhile (tok : List Char)
    (hall : ∀ c ∈ tok, isWordChar c = true) :
    ∀ l : List Char, tok.isPrefixOf l = true →
      boundaryAfter (l.drop tok.length) = true → tok = l.takeWhile isWordChar := by
  induction tok with
  | nil =>
    intro l _ hb
    cases l with
    | nil => rfl
    | cons a as =>
      simp only [List.length_nil, List.drop_zero] at hb
      have ha : isWordChar a = false := by
        simpa [boundaryAfter] using hb
      simp [List.takeWhile_cons, ha]
  | cons t ts ih =>
    intro l hp hb
    cases l with
    | nil => simp [List.isPrefixOf] at hp
    | cons a as =>
      simp only [List.isPrefixOf, Bool.and_eq_true, beq_iff_eq] at hp
      obtain ⟨rfl, hp2⟩ := hp
      have htw : isWordChar t = true := hall t (List.mem_cons_self _ _)
      have hb' : boundaryAfter (as.drop ts.length) = true := by
        simpa [List.length_cons, List.drop_succ_cons] using hb
      rw [List.takeWhile_cons, if_pos htw]
      exact congrArg (t :: ·) (ih (fun c hc => hall c (List.mem_cons_of_mem _ hc)) as hp2 hb')

/-- One step of `wwAux` on an empty remainder. -/
theorem wwAux_nil (tok : List Char) (prev : Option Char) :
    wwAux tok prev [] = ((boundaryBefore prev ∧ tok.isPrefixOf [] ∧
      boundaryAfter (List.drop tok.length [])) || false) := rfl

/-- One step of `wwAux` on a non-empty remainder. -/
theorem wwAux_cons (tok : List Char) (prev : Option Char) (c : Char) (cs : List Char) :
    wwAux tok prev (c :: cs) =
      ((boundaryBefore prev ∧ tok.isPrefixOf (c :: cs) ∧
        boundaryAfter ((c :: cs).drop tok.length)) || wwAux tok (some c) cs) := rfl

/-- Any whole-word match of an all-word-character token is the leading
word-character run of the text, or of the remainder after a non-word
character. -/
theorem wwAux_imp (tok : List Char) (hall : ∀ c ∈ tok, isWordChar c = true) :
    ∀ (l : List Char) (prev : Option Char), wwAux tok prev l = true →
      (boundaryBefore prev = true ∧ tok = l.takeWhile isWordChar) ∨
      ∃ d r, (d :: r) <:+ l ∧ isWordChar d = false ∧ tok = r.takeWhile isWordChar := by
  intro l
  induction l with
  | nil =>
    intro prev h
    rw [wwAux_nil] at h
    simp only [Bool.or_false, decide_eq_true_eq] at h
    obtain ⟨hb, hp, _⟩ := h
    have : tok = [] := List.prefix_nil.mp (List.isPrefixOf_iff_prefix.mp hp)
    exact Or.inl ⟨by simpa using hb, by simp [this]⟩
  | cons c cs ih =>
    intro prev h
    rw [wwAux_cons] at h
    rcases Bool.or_eq_true_iff.mp h with h | h
    · simp only [decide_eq_true_eq] at h
      obtain ⟨hb, hp, ha⟩ := h
      exact Or.inl ⟨by simpa using hb, prefix_boundary_takeWhile tok hall _ hp ha⟩
    · rcases ih (some c) h with ⟨hb, htok⟩ | ⟨d, r, hsuf, hd, htok⟩
      · have hc : isWordChar c = false := by
          simpa [boundaryBefore] using hb
        exact Or.inr ⟨c, cs, List.suffix_refl _, hc, htok⟩
      · exact Or.inr ⟨d, r, hsuf.trans (List.suffix_cons c cs), hd, htok⟩

/-- The candidate whole-word tokens of a text: the leading word run and the
word run after each non-word character. -/
def wordRunCands (l : List Char) : List (List Char) :=
  l.takeWhile isWordChar ::
    l.tails.filterMap (fun t =>
      match t with
      | [] => none
      | d :: r => if isWordChar d then none else some (r.takeWhile isWordChar))

/-- A whole-word match of an all-word-character token is one of the text's
candidate word runs. -/
theorem wwAux_mem_cands (tok l : List Char)
    (hall : ∀ c ∈ tok, isWordChar c = true)
    (h : wwAux tok none l = true) : tok ∈ wordRunCands l := by
  rcases wwAux_imp tok hall l none h with ⟨_, htok⟩ | ⟨d, r, hsuf, hd, htok⟩
  · exact htok ▸ List.mem_cons_self _ _
  · refine List.mem_cons_of_mem _ (List.mem_filterMap.mpr ⟨d :: r, ?_, ?_⟩)
    · exact (List.mem_tails _ _).mpr hsuf
    · simp [hd, htok]

theorem c4_unfold (target : Obj) :
    instruction_mentions_target "change it to blue" target =
      (mentionTokens target).any (fun t => wholeWordIn (pyLower "change it to blue") t) := by
  have hdb : (findDbrefAnywhere (pyLower "change it to blue").data).isSome = false := by
    decide
  simp [instruction_mentions_target, hdb]

/-- C4, counterexample: a target whose key is `"blue"` makes
`instruction_mentions_target("change it to blue", target)` return `True` —
`blue` has length 4, is not a stopword, and occurs as a whole word in the
instruction, so the result is not `False` for every target. -/
theorem c4_counterexample :
    instruction_mentions_target "change it to blue"
      { dbref := "#5", key := "blue", shortdesc := "", notable := true,
        kind := .prop } = true := by
  decide

/-- C4, amended: `instruction_mentions_target("change it to blue", target)`
is not always `False`: the instruction has no `#<digits>` token and its
whole-word tokens are exactly `change`, `it`, `to` and `blue`, of which only
`blue` survives the length-≥-4/stopword filter; so the call returns `True`
exactly when `blue` is among the target's filtered key/shortdesc tokens
(e.g. any target keyed `"blue"`), and `False` otherwise. -/
theorem c4_instruction_mentions_amended (target : Obj) :
    instruction_mentions_target "change it to blue" target = true ↔
      "blue" ∈ mentionTokens target := by
  rw [c4_unfold]
  constructor
  · intro h
    obtain ⟨t, hmem, hww⟩ := List.any_eq_true.mp h
    have hall : ∀ c ∈ t.toList, isWordChar c = true := mentionTokens_wordChar target t hmem
    have hw : wwAux t.toList none ((pyLower "change it to blue").toList) = true := hww
    have hc := wwAux_mem_cands _ _ hall hw
    have hlist : wordRunCands ((pyLower "change it to blue").toList) =
        ["change".toList, "it".toList, "to".toList, "blue".toList] := by decide
    rw [hlist] at hc
    have hcon := (List.mem_filter.mp (by simpa only [mentionTokens] using hmem)).2
    simp only [decide_eq_true_eq] at hcon
    obtain ⟨hlen, hstop⟩ := hcon
    simp only [List.mem_cons, List.not_mem_nil, or_false] at hc
    rcases hc with h1 | h1 | h1 | h1
    · rw [str_eq_of_toList _ _ h1] at hstop
      exact absurd (by decide : mentionStopwords.contains "change" = true) hstop
    · rw [str_eq_of_toList _ _ h1] at hlen
      exact absurd hlen (by decide)
    · rw [str_eq_of_toList _ _ h1] at hlen
      exact absurd hlen (by decide)
    · exact str_eq_of_toList _ _ h1 ▸ hmem
  · intro h
    exact List.any_eq_true.mpr ⟨"blue", h, by decide⟩

/-- C4 witness: the amended theorem applied to a target keyed
`"blue sofa"`, whose token set contains `blue`. -/
theorem c4_instruction_mentions_amended_witness :
    instruction_mentions_target "change it to blue"
      { dbref := "#6", key := "blue sofa", shortdesc := "", notable := true,
        kind := .prop } = true :=
  (c4_instruction_mentions_amended _).mpr (by decide)

/-! ## Claims C9 and C10 — the LLM cooldown gate of `handle_speech` -/

/-- The head of a `dropWhile` result does not satisfy the predicate. -/
theorem head_dropWhile_false {α : Type} (p : α → Bool) (l : List α) (c : α)
    (h : (l.dropWhile p).head? = some c) : p c = false := by
  induction l with
  | nil => simp [List.dropWhile] at h
  | cons a as ih =>
    rw [List.dropWhile_cons] at h
    split at h
    · exact ih h
    · rename_i hpa
      simp only [List.head?_cons, Option.some.injEq] at h
      cases h
      exact Bool.eq_false_iff.mpr hpa

/-- `dropWhile` is the identity when the head does not satisfy the
predicate. -/
theorem dropWhile_eq_self_of_head {α : Type} (p : α → Bool) (l : List α)
    (h : ∀ c, l.head? = some c → p c = false) : l.dropWhile p = l := by
  cases l with
  | nil => rfl
  | cons a as =>
    rw [List.dropWhile_cons, if_neg]
    simp [h a rfl]

/-- `dropWhile` keeps the last element when its result is non-empty. -/
theorem getLast_dropWhile_ne_nil {α : Type} (p : α → Bool) (l : List α)
    (h : l.dropWhile p ≠ []) : (l.dropWhile p).getLast? = l.getLast? := by
  obtain ⟨u, hu⟩ := List.dropWhile_suffix (l := l) p
  conv_rhs => rw [← hu]
  rw [List.getLast?_append]
  cases hg : (l.dropWhile p).getLast? with
  | none => exact absurd (List.getLast?_eq_none_iff.mp hg) h
  | some d => simp [Option.or]

/-- The head of a non-empty `stripList` is not whitespace. -/
theorem stripList_head (l : List Char) (c : Char)
    (h : (stripList l).head? = some c) : isPyWs c = false := by
  simp only [stripList] at h
  rw [List.head?_reverse] at h
  have hne : (l.dropWhile isPyWs).reverse.dropWhile isPyWs ≠ [] := by
    intro he
    rw [he] at h
    cases h
  rw [getLast_dropWhile_ne_nil _ _ hne, List.getLast?_reverse] at h
  exact head_dropWhile_false isPyWs l c h

/-- The last character of a non-empty `stripList` is not whitespace. -/
theorem stripList_getLast (l : List Char) (c : Char)
    (h : (stripList l).getLast? = some c) : isPyWs c = false := by
  simp only [stripList] at h
  rw [List.getLast?_reverse] at h
  exact head_dropWhile_false isPyWs _ c h

/-- `stripList` is idempotent. -/
theorem stripList_idem (l : List Char) : stripList (stripList l) = stripList l := by
  have h1 : (stripList l).dropWhile isPyWs = stripList l :=
    dropWhile_eq_self_of_head _ _ (stripList_head l)
  show (((stripList l).dropWhile isPyWs).reverse.dropWhile isPyWs).reverse = stripList l
  rw [h1]
  have h2 : (stripList l).reverse.dropWhile isPyWs = (stripList l).reverse := by
    apply dropWhile_eq_self_of_head
    intro c hc
    rw [List.head?_reverse] at hc
    exact stripList_getLast l c hc
  rw [h2, List.reverse_reverse]

/-- `pyStrip` is idempotent. -/
theorem pyStrip_idem (s : String) : pyStrip (pyStrip s) = pyStrip s := by
  simp only [pyStrip]
  exact congrArg String.mk (stripList_idem s.toList)

/-- `extract_computer_instruction` always returns trimmed text. -/
theorem extract_trimmed (n : String) :
    pyStrip (extract_computer_instruction n) = extract_computer_instruction n := by
  simp only [extract_computer_instruction]
  by_cases h1 : n = ""
  · subst h1; rfl
  · rw [if_neg h1]
    by_cases h2 : is_computer_addressed n = true
    · rw [if_neg (by simpa using h2)]
      exact pyStrip_idem _
    · rw [if_pos (by simpa using h2)]
      rfl

/-- A string whose first character is not whitespace does not strip to
empty. -/
theorem pyStrip_mk_ne_empty_of_head (r : List Char) (c : Char)
    (hh : r.head? = some c) (hc : isPyWs c = false) :
    pyStrip (String.mk r) ≠ "" := by
  intro h
  have hnil : stripList r = [] := congrArg String.data h
  rw [stripList, List.reverse_eq_nil_iff,
    dropWhile_eq_self_of_head isPyWs r (fun d hd => by
      rw [hh] at hd; cases hd; exact hc)] at hnil
  have := List.dropWhile_eq_nil_iff.mp hnil c
    (List.mem_reverse.mpr (List.mem_of_mem_head? hh))
  rw [hc] at this
  cases this

/-- Non-emptiness of every create verb, used below. -/
theorem createVerbs_ne_nil : ∀ v ∈ createVerbs, v.toList ≠ [] := by decide

/-- For a trimmed instruction that matches the create-verb regex, the
verb-stripped remainder is never empty. -/
theorem create_remainder_nonempty (t : String) (ht : pyStrip t = t)
    (hc : (matchVerbOnly createVerbs (pyLower (pyStrip t)).toList).isSome = true) :
    pyStrip (stripCreateVerb t) ≠ "" := by
  rw [ht] at hc
  have hts : stripList t.toList = t.toList := congrArg String.data ht
  -- the instruction is non-empty: some create verb is a prefix of it
  have htne : t.toList ≠ [] := by
    intro hnil
    cases hf : matchVerbOnly createVerbs (pyLower t).toList with
    | none => rw [hf] at hc; cases hc
    | some v0 =>
      simp only [matchVerbOnly] at hf
      have hmem := List.mem_of_find?_eq_some hf
      have hp := List.find?_some hf
      simp only [vbFull, decide_eq_true_eq] at hp
      have : (pyLower t).toList = [] := by
        show t.toList.map Char.toLower = []
        rw [hnil]; rfl
      rw [this] at hp
      exact createVerbs_ne_nil v0 hmem
        (List.prefix_nil.mp (List.isPrefixOf_iff_prefix.mp hp.1))
  simp only [stripCreateVerb]
  split
  · rename_i v hg
    have hp := List.find?_some hg
    simp only [decide_eq_true_eq] at hp
    obtain ⟨hpre, hws⟩ := hp
    -- the tail after the verb is non-empty
    have htail : t.toList.drop v.length ≠ [] := by
      intro hnil
      have : (t.toList.map Char.toLower).drop v.length = [] := by
        rw [← List.map_drop, hnil]; rfl
      rw [this] at hws
      exact absurd hws (by decide)
    by_cases hr : (t.toList.drop v.length).dropWhile isPyWs = []
    · -- the tail is all whitespace: then t ends in whitespace, impossible
      exfalso
      have hall := List.dropWhile_eq_nil_iff.mp hr
      cases hgl : (t.toList.drop v.length).getLast? with
      | none => exact htail (List.getLast?_eq_none_iff.mp hgl)
      | some d =>
        have hd : isPyWs d = true := hall d (List.mem_of_mem_getLast? hgl)
        have hlast : t.toList.getLast? = some d := by
          conv_lhs => rw [← List.take_append_drop v.length t.toList]
          rw [List.getLast?_append, hgl]
          simp [Option.or]
        have := stripList_getLast t.toList d (by rw [hts]; exact hlast)
        rw [hd] at this
        cases this
    · -- the remainder starts with a non-whitespace character
      cases hr2 : ((t.toList.drop v.length).dropWhile isPyWs).head? with
      | none => exact absurd (List.head?_eq_none_iff.mp hr2) hr
      | some c =>
        exact pyStrip_mk_ne_empty_of_head _ c hr2
          (head_dropWhile_false isPyWs _ c hr2)
  · -- no verb-plus-whitespace prefix: the remainder is the whole instruction
    rw [ht]
    intro hnil
    exact htne (by rw [hnil]; rfl)

/-- The routing hypotheses under which an instruction reaches one of the
three LLM-gated branches (edit, create, or the fallback intent router):
it is non-empty and matches none of the facts / unpin / pin / destroy
branches. -/
def gatedInstruction (instruction : String) : Prop :=
  instruction ≠ "" ∧
  ¬(pyLower (pyStrip instruction) = "facts" ∨
    pyLower (pyStrip instruction) = "list facts" ∨
    pyLower (pyStrip instruction) = "show facts") ∧
  unpinMatch instruction = none ∧
  pinMatch instruction = none ∧
  matchVerbRest destroyVerbs (pyLower (pyStrip instruction)).toList = none

/-- Inside the cooldown window, every gated branch of the dispatcher returns
the cooldown message and leaves the state untouched. -/
theorem dispatchInstruction_cooldown (st : RoomSt) (speaker instruction : String)
    (now : ℚ) (fresh : String)
    (hfacts : ¬(pyLower (pyStrip instruction) = "facts" ∨
      pyLower (pyStrip instruction) = "list facts" ∨
      pyLower (pyStrip instruction) = "show facts"))
    (hun : unpinMatch instruction = none)
    (hpin : pinMatch instruction = none)
    (hdes : matchVerbRest destroyVerbs (pyLower (pyStrip instruction)).toList = none)
    (hrem : (matchVerbOnly createVerbs (pyLower (pyStrip instruction)).toList).isSome = true →
      pyStrip (stripCreateVerb instruction) ≠ "")
    (hcool : now - st.last_llm_call_ts < LLM_COOLDOWN_SECONDS) :
    dispatchInstruction st speaker instruction now fresh =
      some (st, { speakerMsgs := [cooldownMsg] }) := by
  simp only [dispatchInstruction, hun, hpin, hdes]
  rw [if_neg hfacts]
  by_cases he : (matchVerbRest editVerbs (pyLower (pyStrip instruction)).toList).isSome = true
  · rw [if_pos he, if_pos hcool]
  · rw [if_neg he]
    by_cases hc : (matchVerbOnly createVerbs (pyLower (pyStrip instruction)).toList).isSome = true
    · rw [if_pos hc, if_neg (hrem hc), if_pos hcool]
    · rw [if_neg hc, if_pos hcool]

/-- When the extracted instruction is non-empty, `handle_speech` remembers the
message and hands the instruction to the dispatcher. -/
theorem handle_speech_dispatch (st : RoomSt) (speaker message : String)
    (now : ℚ) (fresh : String)
    (hne : extract_computer_instruction (normalize_say_message (pyStrip message)) ≠ "") :
    handle_speech st speaker message now fresh =
      dispatchInstruction (remember st speaker message) speaker
        (extract_computer_instruction (normalize_say_message (pyStrip message)))
        now fresh := by
  have hm : message ≠ "" := by
    intro h; exact hne (by rw [h]; rfl)
  have hms : pyStrip message ≠ "" := by
    intro h; exact hne (by rw [h]; rfl)
  have haddr : is_computer_addressed (normalize_say_message (pyStrip message)) = true := by
    by_contra h
    apply hne
    by_cases hn : normalize_say_message (pyStrip message) = ""
    · rw [hn]; rfl
    · simp only [extract_computer_instruction]
      rw [if_neg hn, if_pos (by simpa using h)]
  simp only [handle_speech]
  rw [if_neg hm, if_neg hms, if_neg (not_not_intro haddr), if_neg hne]

/-- The workhorse shared by the cooldown claims: a gated instruction arriving
inside the cooldown window is answered with the cooldown message only, and
the room state is unchanged apart from the speech memory. -/
theorem handle_speech_cooldown_reject (st : RoomSt)
    (speaker message instruction : String) (now : ℚ) (fresh : String)
    (hI : extract_computer_instruction (normalize_say_message (pyStrip message)) = instruction)
    (hg : gatedInstruction instruction)
    (hcool : now - st.last_llm_call_ts < LLM_COOLDOWN_SECONDS) :
    handle_speech st speaker message now fresh =
      some (remember st speaker message, { speakerMsgs := [cooldownMsg] }) := by
  obtain ⟨hne, hfacts, hun, hpin, hdes⟩ := hg
  have hne0 : extract_computer_instruction (normalize_say_message (pyStrip message)) ≠ "" := by
    rw [hI]; exact hne
  have ht : pyStrip instruction = instruction := by
    rw [← hI]; exact extract_trimmed _
  rw [handle_speech_dispatch st speaker message now fresh hne0, hI]
  exact dispatchInstruction_cooldown _ _ _ _ _ hfacts hun hpin hdes
    (fun hc => create_remainder_nonempty _ ht hc) hcool

/-- Two incomparable lists cannot both be prefixes of the same list. -/
theorem isPrefixOf_clash (a b l : List Char)
    (ha : a.isPrefixOf l = true) (hne : ¬(a <+: b ∨ b <+: a)) :
    ¬(b.isPrefixOf l = true) := fun hbl =>
  hne (List.prefix_or_prefix_of_prefix (List.isPrefixOf_iff_prefix.mp ha)
    (List.isPrefixOf_iff_prefix.mp hbl))

/-- An instruction matching the edit-verb regex matches none of the earlier
branches: it is a gated instruction. -/
theorem edit_gated (instruction : String)
    (hedit : (matchVerbRest editVerbs (pyLower (pyStrip instruction)).toList).isSome = true) :
    gatedInstruction instruction := by
  cases hf : matchVerbRest editVerbs (pyLower (pyStrip instruction)).toList with
  | none => rw [hf] at hedit; cases hedit
  | some v =>
    simp only [matchVerbRest] at hf
    have hmem := List.mem_of_find?_eq_some hf
    have hp := List.find?_some hf
    simp only [decide_eq_true_eq] at hp
    obtain ⟨hvb, -⟩ := hp
    simp only [vbFull, decide_eq_true_eq] at hvb
    obtain ⟨hpre, -⟩ := hvb
    have hpre' : v.toList.isPrefixOf ((pyStrip instruction).toList.map Char.toLower) = true :=
      hpre
    refine ⟨?_, ?_, ?_, ?_, ?_⟩
    · intro h
      rw [h] at hpre
      exact (by decide : ∀ w ∈ editVerbs, w.toList ≠ []) v hmem
        (List.prefix_nil.mp
          (show v.toList <+: [] from List.isPrefixOf_iff_prefix.mp hpre))
    · rintro (h | h | h)
      · rw [h] at hpre
        exact (by decide : ∀ w ∈ editVerbs,
          ¬(w.toList.isPrefixOf "facts".toList = true)) v hmem hpre
      · rw [h] at hpre
        exact (by decide : ∀ w ∈ editVerbs,
          ¬(w.toList.isPrefixOf "list facts".toList = true)) v hmem hpre
      · rw [h] at hpre
        exact (by decide : ∀ w ∈ editVerbs,
          ¬(w.toList.isPrefixOf "show facts".toList = true)) v hmem hpre
    · simp only [unpinMatch]
      rw [if_neg (isPrefixOf_clash _ _ _ hpre'
        ((by decide : ∀ w ∈ editVerbs,
          ¬(w.toList <+: "unpin".toList ∨ "unpin".toList <+: w.toList)) v hmem))]
    · simp only [pinMatch]
      rw [if_neg (isPrefixOf_clash _ _ _ hpre'
        ((by decide : ∀ w ∈ editVerbs,
          ¬(w.toList <+: "pin".toList ∨ "pin".toList <+: w.toList)) v hmem))]
    · apply List.find?_eq_none.mpr
      intro d hd
      simp only [decide_eq_true_eq, not_and]
      intro hvb2 _
      simp only [vbFull, decide_eq_true_eq] at hvb2
      exact isPrefixOf_clash _ _ _ hpre
        ((by decide : ∀ w ∈ editVerbs, ∀ d ∈ destroyVerbs,
          ¬(w.toList <+: d.toList ∨ d.toList <+: w.toList)) v hmem d hd) hvb2.1

/-- C9: any instruction routed to one of the three LLM-gated branches (edit,
create, or the fallback intent router) that arrives less than
`LLM_COOLDOWN_SECONDS` after the room's `last_llm_call_ts` is answered with
the cooldown message to the speaker only: no background task is launched, no
room broadcast or rewrite is scheduled, `last_llm_call_ts` is not updated,
and nothing is queued — the whole result is the remembered state plus the
single cooldown message. -/
theorem c9_cooldown_rejects (st : RoomSt)
    (speaker message instruction : String) (now : ℚ) (fresh : String)
    (hI : extract_computer_instruction (normalize_say_message (pyStrip message)) = instruction)
    (hg : gatedInstruction instruction)
    (hcool : now - st.last_llm_call_ts < LLM_COOLDOWN_SECONDS) :
    handle_speech st speaker message now fresh =
      some (remember st speaker message, { speakerMsgs := [cooldownMsg] }) :=
  handle_speech_cooldown_reject st speaker message instruction now fresh hI hg hcool

/-- C9 witness: a create instruction one second after the last LLM call is
rejected with the cooldown message. -/
theorem c9_cooldown_rejects_witness :
    handle_speech ⟨[], .pynone, 0, []⟩ "bob" "computer, make a red ball" 1 "aa" =
      some (remember ⟨[], .pynone, 0, []⟩ "bob" "computer, make a red ball",
        { speakerMsgs := [cooldownMsg] }) :=
  c9_cooldown_rejects ⟨[], .pynone, 0, []⟩ "bob" "computer, make a red ball"
    "make a red ball" 1 "aa" (by decide) (by simp only [gatedInstruction]; decide)
    (show (1 : ℚ) - 0 < LLM_COOLDOWN_SECONDS by norm_num [LLM_COOLDOWN_SECONDS])

/-- C10: an edit instruction that passes the cooldown gate consumes the
cooldown even when target resolution fails (or the resolved target is demoted
by the mentions check): the returned state carries `last_llm_call_ts = now`
with only a single disambiguation message to the speaker and no launched
task, and any gated instruction arriving within the cooldown window
afterwards is rejected with the cooldown message. -/
theorem c10_edit_gate_consumes_cooldown (st : RoomSt)
    (speaker message instruction : String) (now : ℚ) (fresh : String)
    (hI : extract_computer_instruction (normalize_say_message (pyStrip message)) = instruction)
    (hedit : (matchVerbRest editVerbs (pyLower (pyStrip instruction)).toList).isSome = true)
    (hgate : ¬(now - st.last_llm_call_ts < LLM_COOLDOWN_SECONDS))
    (hfail : ∀ t, (resolve_edit_target ⟨st.contents⟩ instruction).fst = some t →
      instruction_mentions_target instruction t = false) :
    (∃ m, handle_speech st speaker message now fresh =
      some ({ remember st speaker message with last_llm_call_ts := now },
        { speakerMsgs := [m] })) ∧
    (∀ (speaker₂ message₂ instruction₂ : String) (now₂ : ℚ) (fresh₂ : String),
      extract_computer_instruction (normalize_say_message (pyStrip message₂)) = instruction₂ →
      gatedInstruction instruction₂ →
      now₂ - now < LLM_COOLDOWN_SECONDS →
      handle_speech { remember st speaker message with last_llm_call_ts := now }
          speaker₂ message₂ now₂ fresh₂ =
        some (remember { remember st speaker message with last_llm_call_ts := now }
            speaker₂ message₂,
          { speakerMsgs := [cooldownMsg] })) := by
  constructor
  · obtain ⟨hne, hfacts, hun, hpin, hdes⟩ := edit_gated instruction hedit
    have hne0 : extract_computer_instruction (normalize_say_message (pyStrip message)) ≠ "" := by
      rw [hI]; exact hne
    rw [handle_speech_dispatch st speaker message now fresh hne0, hI]
    simp only [dispatchInstruction, hun, hpin, hdes, remember]
    rw [if_neg hfacts, if_pos hedit, if_neg hgate]
    cases hres : (resolve_edit_target ⟨st.contents⟩ instruction).fst with
    | none =>
      simp only [hres]
      split
      · exact ⟨_, rfl⟩
      · split <;> exact ⟨_, rfl⟩
    | some t =>
      have hm := hfail t hres
      simp only [hres]
      rw [if_pos (show ¬(instruction_mentions_target instruction t = true) by simp [hm])]
      dsimp only
      split
      · exact ⟨_, rfl⟩
      · split <;> exact ⟨_, rfl⟩
  · intro speaker₂ message₂ instruction₂ now₂ fresh₂ hI₂ hg₂ hcool₂
    exact handle_speech_cooldown_reject _ speaker₂ message₂ instruction₂ now₂ fresh₂
      hI₂ hg₂ hcool₂

/-- C10 witness: in an empty room, `change #99 to be blue` passes the gate,
resolution misses, the cooldown is nevertheless consumed, and a create
instruction one second later is rejected. -/
theorem c10_edit_gate_consumes_cooldown_witness :
    (∃ m, handle_speech ⟨[], .pynone, 0, []⟩ "alice"
        "computer, change #99 to be blue" 5 "ff" =
      some ({ remember ⟨[], .pynone, 0, []⟩ "alice"
            "computer, change #99 to be blue" with last_llm_call_ts := 5 },
        { speakerMsgs := [m] })) ∧
    handle_speech { remember ⟨[], .pynone, 0, []⟩ "alice"
          "computer, change #99 to be blue" with last_llm_call_ts := 5 }
        "bob" "computer, make a cat" 6 "gg" =
      some (remember { remember ⟨[], .pynone, 0, []⟩ "alice"
            "computer, change #99 to be blue" with last_llm_call_ts := 5 }
          "bob" "computer, make a cat",
        { speakerMsgs := [cooldownMsg] }) := by
  have h := c10_edit_gate_consumes_cooldown ⟨[], .pynone, 0, []⟩ "alice"
    "computer, change #99 to be blue" "change #99 to be blue" 5 "ff"
    (by decide) (by decide)
    (show ¬((5 : ℚ) - 0 < LLM_COOLDOWN_SECONDS) by norm_num [LLM_COOLDOWN_SECONDS])
    (by
      intro t ht
      have h0 : (resolve_edit_target ⟨(⟨[], .pynone, 0, []⟩ : RoomSt).contents⟩
          "change #99 to be blue").fst = none := by decide
      rw [h0] at ht
      cases ht)
  exact ⟨h.1, h.2 "bob" "computer, make a cat" "make a cat" 6 "gg" (by decide)
    (by simp only [gatedInstruction]; decide)
    (show (6 : ℚ) - 5 < LLM_COOLDOWN_SECONDS by norm_num [LLM_COOLDOWN_SECONDS])⟩

end MudSpec
